import Mathlib

/-!
# Verification of the uni-schedule migration/grouping/export core

Shallow embedding of `src/App.tsx` (the newest snapshot of the app: the
normalized slots/courses/assignments schema).  JavaScript strings are Lean
`String`s, JS arrays are Lean `List`s, and loosely-typed persisted JSON values
are modelled by the inductive `JValue`.  Nondeterministic environment calls
(`uid()`, `Date.now()`, `confirm(...)`, the Intl collator behind
`localeCompare(_, "el")`) are passed in as parameters, which is their
interface contract.  `Array.prototype.sort`, which ECMAScript specifies to be
a stable sort consistent with the comparator, is embedded as the stable sort
`jsSort` with the boolean relation `comparator(a, b) <= 0`.
-/

/-! ## Data model (App.tsx lines 5-38) -/

inductive Day where
  | Mon | Tue | Wed | Thu | Fri
deriving DecidableEq, Repr

inductive ClassType where
  | THEORY | LAB
deriving DecidableEq, Repr

inductive Theme where
  | dark | light
deriving DecidableEq, Repr

/-- `SlotDef` from the source; the `end` field is called `endTime` because
`end` is a Lean keyword. -/
structure SlotDef where
  id : String
  start : String
  endTime : String
  label : String
deriving DecidableEq, Repr

structure Course where
  id : String
  title : String
  defaultProfessors : String
  courseUrl : String
  createdAt : Nat
deriving DecidableEq, Repr

structure Assignment where
  id : String
  courseId : String
  day : Day
  slotId : String
  classType : ClassType
  room : String
  professors : String
  createdAt : Nat
deriving DecidableEq, Repr

structure CourseGroup where
  course : Course
  sessions : List Assignment
deriving DecidableEq, Repr

/-! ## Constants (App.tsx lines 41-62) -/

/-- The string key of a `Day` (in the source `Day` values are the strings
themselves). -/
def dayKey : Day → String
  | .Mon => "Mon"
  | .Tue => "Tue"
  | .Wed => "Wed"
  | .Thu => "Thu"
  | .Fri => "Fri"

def DAYS : List (Day × String) :=
  [(.Mon, "Δευτέρα"), (.Tue, "Τρίτη"), (.Wed, "Τετάρτη"),
   (.Thu, "Πέμπτη"), (.Fri, "Παρασκευή")]

def DEFAULT_SLOTS : List SlotDef :=
  [{ id := "09-11", start := "09:00", endTime := "11:00", label := "09:00–11:00" },
   { id := "11-13", start := "11:00", endTime := "13:00", label := "11:00–13:00" },
   { id := "14-16", start := "14:00", endTime := "16:00", label := "14:00–16:00" },
   { id := "16-18", start := "16:00", endTime := "18:00", label := "16:00–18:00" }]

/-! ## Small helpers (App.tsx lines 64-93) -/

/-- JS `a || b` on strings: the empty string is the only falsy string. -/
def strOr (a b : String) : String := if a == "" then b else a

/-- The characters `String.prototype.trim` strips (ECMAScript WhiteSpace and
LineTerminator code points). -/
def jsWhitespace (c : Char) : Bool :=
  let n := c.toNat
  n == 0x9 || n == 0xA || n == 0xB || n == 0xC || n == 0xD || n == 0x20 ||
  n == 0xA0 || n == 0x1680 || (0x2000 ≤ n && n ≤ 0x200A) || n == 0x2028 ||
  n == 0x2029 || n == 0x202F || n == 0x205F || n == 0x3000 || n == 0xFEFF

/-- JS `String.prototype.trim`: strip leading and trailing whitespace. -/
def jsTrim (s : String) : String :=
  ⟨((s.data.dropWhile jsWhitespace).reverse.dropWhile jsWhitespace).reverse⟩

/-- JS `String.prototype.toLowerCase`, restricted to its ASCII action (the
only case-folding the verified properties exercise). -/
def jsToLower (s : String) : String := ⟨s.data.map Char.toLower⟩

/-- `isHHMM` (App.tsx line 68): the regex `^([01]\d|2[0-3]):[0-5]\d$`. -/
def isHHMM (x : String) : Bool :=
  match x.data with
  | [h1, h2, colon, m1, m2] =>
    (((h1 == '0' || h1 == '1') && h2.isDigit) ||
      (h1 == '2' && ('0' ≤ h2 && h2 ≤ '3'))) &&
    colon == ':' &&
    ('0' ≤ m1 && m1 ≤ '5') && m2.isDigit
  | _ => false

/-- `dayLabel` (App.tsx line 77): label from `DAYS`, falling back to the key. -/
def dayLabel (d : Day) : String :=
  (((DAYS.find? (fun x => x.1 == d)).map (fun x => x.2)).getD (dayKey d))

/-- `typeShort` (App.tsx line 80). -/
def typeShort : ClassType → String
  | .THEORY => "Θ"
  | .LAB => "Ε"

/-- `slotLabel` (App.tsx line 83). -/
def slotLabel (slotId : String) (slots : List SlotDef) : String :=
  (((slots.find? (fun s => s.id == slotId)).map (fun s => s.label)).getD slotId)

/-- JS `String.prototype.replaceAll` for a single-character pattern, on the
character list of a string. -/
def replaceAllChar (p : Char) (r : List Char) : List Char → List Char
  | [] => []
  | c :: cs =>
    if c == p then r ++ replaceAllChar p r cs else c :: replaceAllChar p r cs

/-- The five sequential `replaceAll` calls of `escapeHtml`, ampersand first,
on the character list. -/
def escHtmlL (cs : List Char) : List Char :=
  replaceAllChar (Char.ofNat 39) "&#039;".data
    (replaceAllChar (Char.ofNat 34) "&quot;".data
      (replaceAllChar '>' "&gt;".data
        (replaceAllChar '<' "&lt;".data
          (replaceAllChar '&' "&amp;".data cs))))

/-- `escapeHtml` (App.tsx lines 86-93). -/
def escapeHtml (s : String) : String := ⟨escHtmlL s.data⟩

/-! ## Loosely-typed persisted JSON values -/

/-- A parsed-JSON value as delivered by `JSON.parse`.  Property access on
anything that is not an object yields `undefined`, which we conflate with
`jnull` (the code only ever distinguishes values by `typeof` and truthiness,
for which null and undefined agree). -/
inductive JValue where
  | jnull
  | jbool (b : Bool)
  | jnum (n : Int)
  | jstr (s : String)
  | jarr (elems : List JValue)
  | jobj (fields : List (String × JValue))

/-- JS truthiness of a parsed-JSON value. -/
def JValue.truthy : JValue → Bool
  | .jnull => false
  | .jbool b => b
  | .jnum n => n != 0
  | .jstr s => s != ""
  | .jarr _ => true
  | .jobj _ => true

/-- `typeof x === "object"` (true for null, arrays and objects). -/
def JValue.typeofObject : JValue → Bool
  | .jnull => true
  | .jarr _ => true
  | .jobj _ => true
  | _ => false

/-- Property read.  For duplicate keys `JSON.parse` keeps the last one, hence
the fold.  Missing properties and non-objects give `jnull` (undefined). -/
def JValue.getField (v : JValue) (k : String) : JValue :=
  match v with
  | .jobj fields =>
    (fields.foldl (fun acc f => if f.1 == k then some f.2 else acc) none).getD .jnull
  | _ => .jnull

/-- `typeof x.k === "string" ? some it : none`. -/
def JValue.getStr (v : JValue) (k : String) : Option String :=
  match v.getField k with
  | .jstr s => some s
  | _ => none

/-- `isDay` (App.tsx line 71) as a parser. -/
def parseDay : JValue → Option Day
  | .jstr "Mon" => some .Mon
  | .jstr "Tue" => some .Tue
  | .jstr "Wed" => some .Wed
  | .jstr "Thu" => some .Thu
  | .jstr "Fri" => some .Fri
  | _ => none

/-- `isClassType(raw) ? raw : "THEORY"` (App.tsx lines 74-76 and 377). -/
def parseClassTypeD : JValue → ClassType
  | .jstr "THEORY" => .THEORY
  | .jstr "LAB" => .LAB
  | _ => .THEORY

/-! ## Validator: `normalizeSlots` (App.tsx lines 95-108) -/

/-- The body of the `for` loop of `normalizeSlots`, one element at a time. -/
def normalizeSlotsList : List JValue → List SlotDef
  | [] => []
  | x :: xs =>
    if !(x.truthy && x.typeofObject) then normalizeSlotsList xs
    else
      let id := (x.getStr "id").getD ""
      let start := (x.getStr "start").getD ""
      let endT := (x.getStr "end").getD ""
      let label := (x.getStr "label").getD ""
      if id == "" || !isHHMM start || !isHHMM endT then normalizeSlotsList xs
      else
        { id := id, start := start, endTime := endT,
          label := strOr label (start ++ "–" ++ endT) } :: normalizeSlotsList xs

def normalizeSlots : JValue → List SlotDef
  | .jarr xs => normalizeSlotsList xs
  | _ => []

/-! ## Map-backed lookups

The source keeps `courseMap`, `assignMap` and `buildSlotIndex` as JS `Map`s
built by iterating the backing array; a later `set` for the same key
overrides an earlier one, so `get` returns the last match. -/

/-- The value a JS `Map` built by `for (x of l) map.set(key x, x)` returns:
the last element of `l` satisfying `p`. -/
def lastMatch (p : α → Bool) : List α → Option α
  | [] => none
  | a :: as =>
    match lastMatch p as with
    | some b => some b
    | none => if p a then some a else none

/-- `courseMap.get(cid)` (App.tsx line 506). -/
def courseMapGet (courses : List Course) (cid : String) : Option Course :=
  lastMatch (fun c => c.id == cid) courses

/-- `assignMap.get(day + "__" + slotId)` (App.tsx lines 508-512). -/
def assignMapGet (assigns : List Assignment) (d : Day) (slotId : String) :
    Option Assignment :=
  lastMatch (fun a => a.day == d && a.slotId == slotId) assigns

/-- `buildSlotIndex(slots).get(slotId)` (App.tsx lines 128-132): the index of
the last slot with this id. -/
def slotIndexGet (slots : List SlotDef) (slotId : String) : Option Nat :=
  (lastMatch (fun p => p.2.id == slotId) slots.enum).map (fun p => p.1)

/-! ## The Schedule Store: state and operations

The in-memory authoritative collections (`slots`, `courses`, `assigns` React
states).  Every operation is a pure state transformer; `confirm` answers and
`uid()`/`Date.now()` results are parameters. -/

structure AppState where
  slots : List SlotDef
  courses : List Course
  assigns : List Assignment
deriving DecidableEq, Repr

/-- `placeSelectedCourseToCell` (App.tsx lines 667-709).  `selectedCell` is
passed as `day`/`slotId`, the catalog selection as `selectedCourseId`, the
`uid()`/`Date.now()` results as `newId`/`now` and the `confirm` answer as
`confirmed`. -/
def placeSelectedCourseToCell (st : AppState) (day : Day)
    (slotId selectedCourseId newId : String) (now : Nat) (confirmed : Bool) :
    AppState :=
  if selectedCourseId == "" then st else
  match courseMapGet st.courses selectedCourseId with
  | none => st
  | some course =>
    match assignMapGet st.assigns day slotId with
    | some existing =>
      if !confirmed then st
      else
        { st with assigns := st.assigns.map (fun a =>
            if a.id == existing.id then { a with courseId := selectedCourseId }
            else a) }
    | none =>
      { st with assigns := st.assigns ++ [{
          id := newId, courseId := selectedCourseId, day := day,
          slotId := slotId, classType := .THEORY, room := "",
          professors := strOr course.defaultProfessors "",
          createdAt := now }] }

/-- `removeAssignmentFromCell` (App.tsx lines 711-716); `selectedAssignment`
is the assignment-map entry of the selected cell. -/
def removeAssignmentFromCell (st : AppState) (day : Day) (slotId : String)
    (confirmed : Bool) : AppState :=
  match assignMapGet st.assigns day slotId with
  | none => st
  | some sel =>
    if !confirmed then st
    else { st with assigns := st.assigns.filter (fun a => a.id != sel.id) }

/-- `saveSlotEdits` (App.tsx lines 718-732): free-form edit of the selected
cell's classType/room/professors. -/
def saveSlotEdits (st : AppState) (day : Day) (slotId : String)
    (ct : ClassType) (room profs : String) : AppState :=
  match assignMapGet st.assigns day slotId with
  | none => st
  | some sel =>
    { st with assigns := st.assigns.map (fun a =>
        if a.id == sel.id then
          { a with classType := ct, room := jsTrim room, professors := jsTrim profs }
        else a) }

/-- `deleteCourse` (App.tsx lines 639-655): cascades to the course's
assignments. -/
def deleteCourse (st : AppState) (courseId : String) (confirmed : Bool) :
    AppState :=
  match courseMapGet st.courses courseId with
  | none => st
  | some _ =>
    if !confirmed then st
    else
      { st with courses := st.courses.filter (fun x => x.id != courseId),
                assigns := st.assigns.filter (fun a => a.courseId != courseId) }

/-- `deleteSlot` (App.tsx lines 559-570): cascades to assignments referencing
the slot. -/
def deleteSlot (st : AppState) (id : String) (confirmed : Bool) : AppState :=
  if !confirmed then st
  else
    { st with slots := st.slots.filter (fun s => s.id != id),
              assigns := st.assigns.filter (fun a => a.slotId != id) }

/-- `resetToDefaults` (App.tsx lines 572-581). -/
def resetToDefaults (st : AppState) (confirmed : Bool) : AppState :=
  if !confirmed then st
  else
    { st with slots := DEFAULT_SLOTS,
              assigns := st.assigns.filter (fun a =>
                DEFAULT_SLOTS.any (fun s => s.id == a.slotId)) }

/-- `upsertCourse` (App.tsx lines 584-621).  `formId`, `formTitle`,
`formProfs`, `formUrl` are the course form fields (`formId = ""` is add mode,
anything else edit mode); `newId`/`now` are the `uid()`/`Date.now()` results
used in add mode. -/
def upsertCourse (st : AppState) (formId formTitle formProfs formUrl : String)
    (newId : String) (now : Nat) : AppState :=
  let title := jsTrim formTitle
  if title == "" then st else
  let existsSameTitle := st.courses.any (fun c =>
    jsToLower (jsTrim c.title) == jsToLower title && c.id != formId)
  if existsSameTitle then st else
  if formId != "" then
    { st with courses := st.courses.map (fun c =>
        if c.id == formId then
          { c with title := title, defaultProfessors := jsTrim formProfs,
                   courseUrl := jsTrim formUrl }
        else c) }
  else
    { st with courses := st.courses ++ [{
        id := newId, title := title, defaultProfessors := jsTrim formProfs,
        courseUrl := jsTrim formUrl, createdAt := now }] }

/-- `addSlot` (App.tsx lines 538-541); `newId` is the `uid()` result. -/
def addSlot (slots : List SlotDef) (newId : String) : List SlotDef :=
  slots ++ [{ id := newId, start := "09:00", endTime := "10:00",
              label := "09:00–10:00" }]

/-- A `Partial<SlotDef>` patch. -/
structure SlotPatch where
  id : Option String := none
  start : Option String := none
  endTime : Option String := none
  label : Option String := none
deriving DecidableEq, Repr

/-- JS object spread `{ ...s, ...patch }`. -/
def applyPatch (s : SlotDef) (p : SlotPatch) : SlotDef :=
  { id := p.id.getD s.id, start := p.start.getD s.start,
    endTime := p.endTime.getD s.endTime, label := p.label.getD s.label }

/-- `updateSlot` (App.tsx lines 543-545). -/
def updateSlot (slots : List SlotDef) (id : String) (patch : SlotPatch) :
    List SlotDef :=
  slots.map (fun s => if s.id == id then applyPatch s patch else s)

/-- `moveSlot` (App.tsx lines 547-557): swap with the neighbor at `i + dir`,
no-op at the boundaries or when the id is absent. -/
def moveSlot (slots : List SlotDef) (id : String) (dir : Int) : List SlotDef :=
  match slots.findIdx? (fun s => s.id == id) with
  | none => slots
  | some i =>
    let j : Int := (i : Int) + dir
    if j < 0 || j ≥ (slots.length : Int) then slots
    else
      match slots.get? i, slots.get? j.toNat with
      | some si, some sj => (slots.set i sj).set j.toNat si
      | _, _ => slots

/-! ## Store operation words, for reachability statements -/

/-- One user-triggered mutation of the Schedule Store, with all environment
inputs (selections, confirm answers, fresh ids, clock readings) recorded in
the constructor. -/
inductive Op where
  | place (day : Day) (slotId courseId newId : String) (now : Nat)
      (confirmed : Bool)
  | removeA (day : Day) (slotId : String) (confirmed : Bool)
  | updateFields (day : Day) (slotId : String) (ct : ClassType)
      (room profs : String)
  | delCourse (id : String) (confirmed : Bool)
  | delSlot (id : String) (confirmed : Bool)
  | reset (confirmed : Bool)

def applyOp (st : AppState) : Op → AppState
  | .place d s c n t cf => placeSelectedCourseToCell st d s c n t cf
  | .removeA d s cf => removeAssignmentFromCell st d s cf
  | .updateFields d s ct r p => saveSlotEdits st d s ct r p
  | .delCourse i cf => deleteCourse st i cf
  | .delSlot i cf => deleteSlot st i cf
  | .reset cf => resetToDefaults st cf

def applyOps (st : AppState) (ops : List Op) : AppState := ops.foldl applyOp st

/-- The central consistency rule: no two distinct assignments occupy the same
`(day, slotId)` cell. -/
def cellUnique (assigns : List Assignment) : Prop :=
  assigns.Pairwise (fun a b => ¬(a.day = b.day ∧ a.slotId = b.slotId))

/-- Executable check for `cellUnique`, for concrete states. -/
def cellUniqueB : List Assignment → Bool
  | [] => true
  | a :: as =>
    as.all (fun b => !(a.day == b.day && a.slotId == b.slotId)) && cellUniqueB as

/-! ## Schema migrator: `tryMigrateLegacyToNew` (App.tsx lines 355-417)

The scan over the legacy localStorage keys and `JSON.parse` are IO; we embed
the processing of the first legacy value that parsed as an array.  `uid()` is
modelled by an id supply `fresh : Nat → String` consumed in call order, and
`Date.now()` by `now`. -/

/-- The mutable locals of the migration loop (`byTitle`, `courses`,
`assigns`) plus the number of `uid()` calls made so far. -/
structure MigState where
  byTitle : List (String × Course)
  courses : List Course
  assigns : List Assignment
  ctr : Nat
deriving Repr

/-- One iteration of the `for (const x of data)` loop of
`tryMigrateLegacyToNew` (App.tsx lines 369-409). -/
def migStep (slots : List SlotDef) (fresh : Nat → String) (now : Nat)
    (st : MigState) (x : JValue) : MigState :=
  if !(x.truthy && x.typeofObject) then st else
  let title := match x.getStr "title" with
    | some s => jsTrim s
    | none => ""
  let slotId := match x.getStr "slotId" with
    | some s => s
    | none => (x.getStr "slot").getD ""
  match parseDay (x.getField "day") with
  | none => st
  | some day =>
    if title == "" || slotId == "" then st else
    let classType := parseClassTypeD (x.getField "classType")
    let room := (x.getStr "room").getD ""
    let professors := (x.getStr "professors").getD ""
    let courseUrl := (x.getStr "courseUrl").getD ""
    let found := st.byTitle.lookup title
    let course := match found with
      | some c => c
      | none =>
        { id := fresh st.ctr, title := title, defaultProfessors := professors,
          courseUrl := courseUrl, createdAt := now }
    let st1 := match found with
      | some _ => st
      | none =>
        { st with byTitle := st.byTitle ++ [(title, course)],
                  courses := st.courses ++ [course], ctr := st.ctr + 1 }
    if !(slots.any (fun s => s.id == slotId)) then st1 else
    { st1 with
      assigns := st1.assigns ++ [{
        id := fresh st1.ctr, courseId := course.id, day := day,
        slotId := slotId, classType := classType, room := room,
        professors := strOr professors (strOr course.defaultProfessors ""),
        createdAt := now }],
      ctr := st1.ctr + 1 }

/-- The whole loop over one legacy array. -/
def migrateEntries (slots : List SlotDef) (fresh : Nat → String) (now : Nat)
    (data : List JValue) : List Course × List Assignment :=
  let st := data.foldl (migStep slots fresh now) ⟨[], [], [], 0⟩
  (st.courses, st.assigns)

/-- `tryMigrateLegacyToNew` restricted to one parsed legacy array: `some` on
the first nonzero reconstruction (App.tsx line 411), else `none`. -/
def tryMigrateLegacyToNew (slots : List SlotDef) (fresh : Nat → String)
    (now : Nat) (data : List JValue) :
    Option (List Course × List Assignment) :=
  let r := migrateEntries slots fresh now data
  if r.1.length != 0 || r.2.length != 0 then some r else none

/-- The in-memory state right after a load that found no normalized
courses/assignments keys and ran the migration over a parsed legacy array
(App.tsx lines 420-448): migrated collections on success, empty ones when the
migration yielded nothing. -/
def loadedState (slots : List SlotDef) (fresh : Nat → String) (now : Nat)
    (data : List JValue) : AppState :=
  match tryMigrateLegacyToNew slots fresh now data with
  | some r => { slots := slots, courses := r.1, assigns := r.2 }
  | none => { slots := slots, courses := [], assigns := [] }

/-! ## Grouping engine: `groupCourses` (App.tsx lines 134-166)

`localeCompare(_, "el")` is an external Intl collator; it enters as the
parameter `titleLe`, the boolean relation `a.localeCompare(b, "el") <= 0`. -/

/-- Stable insertion into a sorted list: the new element goes *after* every
element `b` with `le b a` (so equal elements keep their original relative
order). -/
def stableInsert (le : α → α → Bool) (a : α) : List α → List α
  | [] => [a]
  | b :: l => if le b a then b :: stableInsert le a l else a :: b :: l

/-- `Array.prototype.sort(comparator)`: ECMAScript requires a stable sort
consistent with the comparator, which (for a consistent comparator) pins the
result down uniquely; this structurally recursive stable sort realizes it,
with `le a b` standing for `comparator(a, b) <= 0`. -/
def jsSort (le : α → α → Bool) (l : List α) : List α :=
  l.foldl (fun acc x => stableInsert le x acc) []

/-- `dayOrder` (App.tsx line 139). -/
def dayOrder (d : Day) : Nat := DAYS.findIdx (fun x => x.1 == d)

/-- `slotOrder` (App.tsx line 140): slot-registry index with the `9999`
sentinel for ids absent from the registry. -/
def slotOrder (slots : List SlotDef) (slotId : String) : Nat :=
  (slotIndexGet slots slotId).getD 9999

/-- The session comparator of App.tsx lines 151-155 (day order, ties by slot
order), as the relation `comparator(x, y) <= 0`. -/
def sessLe (slots : List SlotDef) (x y : Assignment) : Bool :=
  dayOrder x.day < dayOrder y.day ||
  (dayOrder x.day == dayOrder y.day &&
   slotOrder slots x.slotId ≤ slotOrder slots y.slotId)

/-- `if (!map.has(c.id)) map.set(...); map.get(c.id)!.sessions.push(a)`
(App.tsx lines 146-147) on the insertion-ordered entry list of the map. -/
def addToGroups (groups : List (String × CourseGroup)) (c : Course)
    (a : Assignment) : List (String × CourseGroup) :=
  if groups.any (fun p => p.1 == c.id) then
    groups.map (fun p =>
      if p.1 == c.id then (p.1, { p.2 with sessions := p.2.sessions ++ [a] })
      else p)
  else
    groups ++ [(c.id, { course := c, sessions := [a] })]

/-- The grouping loop of App.tsx lines 142-148. -/
def buildGroups (courses : List Course) (assigns : List Assignment) :
    List (String × CourseGroup) :=
  assigns.foldl (fun gs a =>
    match courseMapGet courses a.courseId with
    | none => gs
    | some c => addToGroups gs c a) []

/-- `groupCourses` (App.tsx lines 134-166). -/
def groupCourses (titleLe : String → String → Bool) (courses : List Course)
    (assigns : List Assignment) (slots : List SlotDef) : List CourseGroup :=
  let m := buildGroups courses assigns
  let sorted := m.map (fun p =>
    { p.2 with sessions := jsSort (sessLe slots) p.2.sessions })
  let withSessions := jsSort (fun a b =>
    titleLe a.course.title b.course.title) sorted
  let noSessions := (jsSort (fun a b => titleLe a.title b.title)
      (courses.filter (fun c => !(m.any (fun p => p.1 == c.id))))).map
    (fun c => { course := c, sessions := ([] : List Assignment) })
  withSessions ++ noSessions

/-! ## Export renderer: `buildExportHtml` (App.tsx lines 169-352)

`new Date().toLocaleString("el-GR")` enters as the parameter `nowStr`, and
the collator again as `titleLe`.  Braces of the inline CSS are written with
`\x7b`/`\x7d` escapes; the characters are the same. -/

def buildExportHtml (titleLe : String → String → Bool) (courses : List Course)
    (assigns : List Assignment) (slots : List SlotDef) (theme : Theme)
    (nowStr : String) : String :=
  let tableRows := String.join (slots.map (fun slot =>
    let cells := String.join (DAYS.map (fun day =>
      match assignMapGet assigns day.1 slot.id with
      | none => "<td class=\"cell empty\"></td>"
      | some a =>
        let title := match courseMapGet courses a.courseId with
          | some c => c.title
          | none => "—"
        "
          <td class=\"cell\">
            <div class=\"cellTitle\">" ++ escapeHtml title ++ "</div>
            <div class=\"cellMeta\">
              <span class=\"badge\">" ++ typeShort a.classType ++ "</span>
              <span class=\"room\">" ++ escapeHtml (strOr a.room "-") ++ "</span>
            </div>
          </td>
        "))
    "
        <tr>
          <th class=\"rowHead\">" ++ escapeHtml slot.label ++ "</th>
          " ++ cells ++ "
        </tr>
      "))
  let groups := groupCourses titleLe courses assigns slots
  let listItems := String.join (groups.map (fun g =>
    let c := g.course
    let urlPart :=
      if c.courseUrl == "" then "<span class=\"muted\">—</span>"
      else "<a href=\"" ++ escapeHtml c.courseUrl ++
        "\" target=\"_blank\" rel=\"noreferrer\">" ++ escapeHtml c.courseUrl ++ "</a>"
    let profPart :=
      if jsTrim c.defaultProfessors == "" then "—"
      else escapeHtml c.defaultProfessors
    let sessionsHtml :=
      if g.sessions.length == 0 then
        "<div class=\"liMeta muted\">Δεν έχει τοποθετηθεί σε slot.</div>"
      else
        String.join (g.sessions.map (fun s => "
          <div class=\"sessionRow\">
            <span>" ++ escapeHtml (dayLabel s.day) ++ " — " ++
          escapeHtml (slotLabel s.slotId slots) ++ "</span>
            <span class=\"badge\">" ++ typeShort s.classType ++ "</span>
            <span class=\"room\">" ++ escapeHtml (strOr s.room "—") ++ "</span>
            <span class=\"muted\">|</span>
            <span>" ++ escapeHtml (strOr s.professors (strOr c.defaultProfessors "—")) ++ "</span>
          </div>
        "))
    "
        <li class=\"li\">
          <div class=\"liTitle\">" ++ escapeHtml c.title ++ "</div>
          <div class=\"liMeta\"><b>Καθηγητές (default):</b> " ++ profPart ++ "</div>
          <div class=\"liMeta\"><b>Σελίδα μαθήματος:</b> " ++ urlPart ++ "</div>
          <div class=\"liMeta\"><b>Slots:</b></div>
          " ++ sessionsHtml ++ "
        </li>
      "))
  let htmlThemeAttr :=
    match theme with
    | .light => " data-theme=\"light\""
    | .dark => " data-theme=\"dark\""
  "<!doctype html>
<html lang=\"el\"" ++ htmlThemeAttr ++ ">
<head>
  <meta charset=\"utf-8\" />
  <meta name=\"viewport\" content=\"width=device-width, initial-scale=1\" />
  <title>Εβδομαδιαίο Πρόγραμμα</title>
  <style>
    :root\x7b
      --bg0:#05070b;
      --bg1:#0b1020;
      --text:#e5e7eb;
      --muted:#94a3b8;
      --border: rgba(255,255,255,.10);
      --blue:#22d3ee;
      --shadow: 0 14px 42px rgba(0,0,0,.60);
      --card: rgba(8,12,22,.78);
      --cardEmpty: rgba(8,12,22,.35);
      --dash: rgba(148,163,184,.25);
      --badgeBg: rgba(15,23,42,.75);
      --badgeBorder: rgba(255,255,255,.14);
    \x7d
    html[data-theme=\"light\"]\x7b
      --bg0:#f7f7fb;
      --bg1:#ffffff;
      --text:#0f172a;
      --muted:#475569;
      --border: rgba(2,6,23,.12);
      --blue:#0ea5e9;
      --shadow: 0 14px 42px rgba(2,6,23,.08);
      --card: rgba(255,255,255,.92);
      --cardEmpty: rgba(255,255,255,.75);
      --dash: rgba(2,6,23,.20);
      --badgeBg: rgba(241,245,249,.95);
      --badgeBorder: rgba(2,6,23,.12);
    \x7d

    body\x7b
      font-family: system-ui,-apple-system,Segoe UI,Roboto,Arial;
      margin:18px;
      color:var(--text);
      background:
        radial-gradient(900px 520px at 10% 0%, rgba(124,58,237,.18), transparent 58%),
        radial-gradient(780px 480px at 90% 10%, rgba(255,45,85,.12), transparent 58%),
        radial-gradient(920px 640px at 50% 120%, rgba(34,211,238,.10), transparent 58%),
        linear-gradient(180deg, var(--bg0), var(--bg1));
    \x7d

    .wrap\x7bmax-width:1100px; margin:0 auto;\x7d
    h1\x7bmargin:0 0 6px; font-size:22px; letter-spacing:.3px;\x7d
    .sub\x7bcolor:var(--muted); margin-bottom:14px; font-size:13px;\x7d

    .tableScroll\x7boverflow:auto; -webkit-overflow-scrolling: touch; padding-bottom:6px;\x7d
    table\x7bwidth:100%; border-collapse:separate; border-spacing:10px; table-layout:fixed; min-width:860px;\x7d
    th, td\x7bvertical-align:top;\x7d
    .colHead\x7bfont-size:12.5px; color:var(--muted); text-align:left; padding-left:4px; font-family: ui-monospace, SFMono-Regular, Menlo, Monaco, Consolas, \"Liberation Mono\", \"Courier New\", monospace;\x7d
    .rowHead\x7bfont-size:12px; color:var(--muted); text-align:right; padding-right:6px; width:140px; font-family: ui-monospace, SFMono-Regular, Menlo, Monaco, Consolas, \"Liberation Mono\", \"Courier New\", monospace;\x7d
    .cell\x7bbackground: var(--card); border:1px solid var(--border); border-radius:16px; padding:10px; min-height:68px; box-shadow: var(--shadow);\x7d
    .empty\x7bbackground: var(--cardEmpty); border:1px dashed var(--dash); box-shadow:none;\x7d
    .cellTitle\x7bfont-weight:900; font-size:13px; margin-bottom:6px; letter-spacing:.2px;\x7d
    .cellMeta\x7bdisplay:flex; gap:8px; align-items:center; font-size:12px; color:var(--muted);\x7d

    hr\x7bborder:none; border-top:1px solid var(--border); margin:18px 0;\x7d
    ul\x7blist-style:none; padding:0; margin:0; display:flex; flex-direction:column; gap:10px;\x7d
    .li\x7bbackground: var(--card); border:1px solid var(--border); border-radius:16px; padding:12px; box-shadow: var(--shadow); break-inside: avoid;\x7d
    .liTitle\x7bfont-weight:950; margin-bottom:6px; letter-spacing:.2px;\x7d
    .liMeta\x7bfont-size:13px; color:var(--muted); margin-top:6px;\x7d
    .muted\x7bcolor:var(--muted);\x7d
    a\x7bcolor: var(--blue); text-decoration:none;\x7d
    a:hover\x7btext-decoration:underline;\x7d
    .sessionRow\x7bdisplay:flex; gap:8px; align-items:center; flex-wrap:wrap; margin-top:8px; padding-top:8px; border-top:1px solid var(--border); break-inside: avoid;\x7d
    .badge\x7bdisplay:inline-flex; align-items:center; justify-content:center; padding:2px 8px; border-radius:999px; border:1px solid var(--badgeBorder); background: var(--badgeBg); font-weight:950; font-size:12px;\x7d
    .room\x7bopacity:.95;\x7d
  </style>
</head>
<body>
  <div class=\"wrap\">
    <h1>Εβδομαδιαίο Πρόγραμμα</h1>
    <div class=\"sub\">Παραγωγή: " ++ escapeHtml nowStr ++ " • Theme: " ++
  escapeHtml (match theme with | .light => "light" | .dark => "dark") ++ "</div>

    <div class=\"tableScroll\">
      <table>
        <thead>
          <tr>
            <th></th>
            " ++ String.join (DAYS.map (fun d =>
              "<th class=\"colHead\">" ++ escapeHtml d.2 ++ "</th>")) ++ "
          </tr>
        </thead>
        <tbody>
          " ++ tableRows ++ "
        </tbody>
      </table>
    </div>

    <hr />

    <h1>Λίστα μαθημάτων</h1>
    <div class=\"sub\">Ομαδοποιημένα ανά μάθημα (με slots)</div>

    <ul>
      " ++ strOr listItems "<li class=\"li\"><span class=\"muted\">Δεν υπάρχουν καταχωρήσεις.</span></li>" ++ "
    </ul>
  </div>
</body>
</html>"

/-! ## Specification-side definitions

Everything below is stated *about* the embedded code; these definitions come
from the claims' wording, not from the source, and are only used on the
specification side of theorems. -/

/-- `pat` is a prefix of `text` (character lists). -/
def startsWithL : List Char → List Char → Bool
  | [], _ => true
  | _ :: _, [] => false
  | p :: ps, c :: cs => p == c && startsWithL ps cs

/-- `pat` occurs somewhere in `text` (character lists). -/
def containsL (pat : List Char) : List Char → Bool
  | [] => startsWithL pat []
  | c :: rest => startsWithL pat (c :: rest) || containsL pat rest

/-- `pat` occurs somewhere in `s`. -/
def strContains (s pat : String) : Bool := containsL pat.data s.data

/-- Splitting a character list into chunks of at most `n + 1` characters
(when given at least `length` fuel; with exhausted fuel the remainder comes
out as one final chunk, which still flattens back).  Only used to keep
concrete containment computations shallow enough for the kernel. -/
def splitChunks (n : Nat) : Nat → List Char → List (List Char)
  | _, [] => []
  | 0, l => [l]
  | fuel + 1, c :: cs =>
    (c :: cs).take (n + 1) :: splitChunks n fuel ((c :: cs).drop (n + 1))

/-- Chunkwise occurrence check: scans chunk by chunk, carrying the last
`pat.length - 1` characters as a window so occurrences spanning a chunk
boundary are found. -/
def chunkedContains (pat : List Char) : List Char → List (List Char) → Bool
  | w, [] => containsL pat w
  | w, c :: cs =>
    let piece := w ++ c
    containsL pat piece ||
      chunkedContains pat (piece.drop (piece.length - (pat.length - 1))) cs

/-- The per-character entity expansion the spec describes for `escapeHtml`. -/
def escChar (c : Char) : List Char :=
  if c == '&' then "&amp;".data
  else if c == '<' then "&lt;".data
  else if c == '>' then "&gt;".data
  else if c == Char.ofNat 34 then "&quot;".data
  else if c == Char.ofNat 39 then "&#039;".data
  else [c]

/-- The claim's escaper specification: every occurrence of the five special
characters replaced by its entity, independently per character. -/
def escapeSpec (s : String) : String := ⟨(s.data.map escChar).flatten⟩

/-- The claim's acceptance rule for one raw element of the slot array
(C8's wording): accepted exactly when `id`, `start`, `end` are strings with
`id` non-empty and both times matching `HH:MM`; the label falls back to
`start–end` when absent, not a string, or empty. -/
def slotOfJValueSpec (x : JValue) : Option SlotDef :=
  match x.getStr "id", x.getStr "start", x.getStr "end" with
  | some id, some start, some endT =>
    if id ≠ "" ∧ isHHMM start ∧ isHHMM endT then
      some { id := id, start := start, endTime := endT,
             label := strOr ((x.getStr "label").getD "") (start ++ "–" ++ endT) }
    else none
  | _, _, _ => none

/-- The validity test the migration loop applies before synthesizing records
(C2/C3's "valid entry"): object-like, non-empty trimmed title, recognized
day, non-empty slot identifier.  Returns the extracted (title, day, slotId). -/
def legacyValid (x : JValue) : Option (String × Day × String) :=
  if !(x.truthy && x.typeofObject) then none else
  let title := match x.getStr "title" with
    | some s => jsTrim s
    | none => ""
  let slotId := match x.getStr "slotId" with
    | some s => s
    | none => (x.getStr "slot").getD ""
  match parseDay (x.getField "day") with
  | none => none
  | some d => if title == "" || slotId == "" then none else some (title, d, slotId)

/-- The first entry of the legacy array that is valid and carries the given
trimmed title. -/
def firstEntryForTitle (data : List JValue) (t : String) : Option JValue :=
  data.find? (fun x =>
    match legacyValid x with
    | some v => v.1 == t
    | none => false)

/-- The professors / courseUrl strings the migration reads off a raw entry. -/
def entryProfessors (x : JValue) : String := (x.getStr "professors").getD ""

def entryCourseUrl (x : JValue) : String := (x.getStr "courseUrl").getD ""

/-- Non-empty ids and well-formed times, plus id uniqueness: the slot
registry invariant the spec states. -/
def slotsWF (slots : List SlotDef) : Prop :=
  (∀ s ∈ slots, s.id ≠ "" ∧ isHHMM s.start = true ∧ isHHMM s.endTime = true) ∧
  (slots.map (fun s => s.id)).Nodup

/-- A deterministic id supply standing in for `uid()` in concrete scenarios. -/
def fresh0 (n : Nat) : String := "id" ++ toString n

/-! ## Concrete scenario inputs -/

/-- Two legacy entries occupying the same `(Mon, "09-11")` cell. -/
def entryDupA : JValue :=
  .jobj [("title", .jstr "Algebra"), ("day", .jstr "Mon"), ("slotId", .jstr "09-11")]

def entryDupB : JValue :=
  .jobj [("title", .jstr "Biology"), ("day", .jstr "Mon"), ("slotId", .jstr "09-11")]

/-- Two legacy entries for the same title "A": the first with empty
professors, the second carrying "Smith". -/
def entryProfA1 : JValue :=
  .jobj [("title", .jstr "A"), ("day", .jstr "Mon"), ("slotId", .jstr "09-11"),
         ("professors", .jstr "")]

def entryProfA2 : JValue :=
  .jobj [("title", .jstr "A"), ("day", .jstr "Tue"), ("slotId", .jstr "09-11"),
         ("professors", .jstr "Smith")]

/-- A valid legacy entry whose slot id "zz" is not in the registry. -/
def entryGoneSlot : JValue :=
  .jobj [("title", .jstr "A"), ("day", .jstr "Mon"), ("slotId", .jstr "zz")]

def courseA : Course :=
  { id := "cA", title := "A", defaultProfessors := "", courseUrl := "",
    createdAt := 0 }

def courseB : Course :=
  { id := "cB", title := "B", defaultProfessors := "", courseUrl := "",
    createdAt := 0 }

/-- Two assignments sharing the id "x" (possible because the normalized-key
load path `JSON.parse`s courses/assignments without any validation). -/
def assignDupIdA : Assignment :=
  { id := "x", courseId := "cA", day := .Mon, slotId := "09-11",
    classType := .THEORY, room := "r1", professors := "p1", createdAt := 1 }

def assignDupIdB : Assignment :=
  { id := "x", courseId := "cA", day := .Tue, slotId := "11-13",
    classType := .LAB, room := "r2", professors := "p2", createdAt := 2 }

def stDupIds : AppState :=
  { slots := DEFAULT_SLOTS, courses := [courseA, courseB],
    assigns := [assignDupIdA, assignDupIdB] }

/-- A catalog holding a course whose id is the empty string (again only
reachable through the unvalidated normalized-key load). -/
def stEmptyIdCourse : AppState :=
  { slots := DEFAULT_SLOTS,
    courses := [{ id := "", title := "a", defaultProfessors := "",
                  courseUrl := "", createdAt := 0 }],
    assigns := [] }

def courseT : Course :=
  { id := "c1", title := "T", defaultProfessors := "", courseUrl := "",
    createdAt := 0 }

/-- Raw stored slots with a duplicated id, both elements well-formed
otherwise. -/
def rawDupSlotIds : JValue :=
  .jarr [.jobj [("id", .jstr "a"), ("start", .jstr "09:00"), ("end", .jstr "10:00")],
         .jobj [("id", .jstr "a"), ("start", .jstr "10:00"), ("end", .jstr "11:00")]]

/-- The XSS-probe course of the spec's escaping scenario. -/
def scriptCourse : Course :=
  { id := "c1", title := "<script>alert(1)</script>", defaultProfessors := "",
    courseUrl := "", createdAt := 0 }

def scriptAssign : Assignment :=
  { id := "a1", courseId := "c1", day := .Mon, slotId := "09-11",
    classType := .THEORY, room := "", professors := "", createdAt := 0 }

/-- The export document produced for the escaping scenario (any collator and
clock reading would do; they are instantiated). -/
def scriptDoc : String :=
  buildExportHtml (fun _ _ => true) [scriptCourse] [scriptAssign]
    DEFAULT_SLOTS .dark "1/1/2025"

/-- The action of one migration-loop iteration *after* the validity checks
passed: exactly the remainder of the loop body of `tryMigrateLegacyToNew`,
with the extracted `title`/`day`/`slotId` supplied.  (`migStep_eq_migCore`
proves that `migStep` is this composed with `legacyValid`.) -/
def migCore (slots : List SlotDef) (fresh : Nat → String) (now : Nat)
    (st : MigState) (x : JValue) (title : String) (day : Day)
    (slotId : String) : MigState :=
  let classType := parseClassTypeD (x.getField "classType")
  let room := (x.getStr "room").getD ""
  let professors := (x.getStr "professors").getD ""
  let courseUrl := (x.getStr "courseUrl").getD ""
  let found := st.byTitle.lookup title
  let course := match found with
    | some c => c
    | none =>
      { id := fresh st.ctr, title := title, defaultProfessors := professors,
        courseUrl := courseUrl, createdAt := now }
  let st1 := match found with
    | some _ => st
    | none =>
      { st with byTitle := st.byTitle ++ [(title, course)],
                courses := st.courses ++ [course], ctr := st.ctr + 1 }
  if !(slots.any (fun s => s.id == slotId)) then st1 else
  { st1 with
    assigns := st1.assigns ++ [{
      id := fresh st1.ctr, courseId := course.id, day := day,
      slotId := slotId, classType := classType, room := room,
      professors := strOr professors (strOr course.defaultProfessors ""),
      createdAt := now }],
    ctr := st1.ctr + 1 }

/-- A well-formed single assignment occupying `(Mon, "09-11")`. -/
def wfAssign : Assignment :=
  { id := "a0", courseId := "cA", day := .Mon, slotId := "09-11",
    classType := .THEORY, room := "r", professors := "p", createdAt := 7 }

/-- The invariant of the grouping map built by `buildGroups`: keys are the
group's course id, keys are pairwise distinct, every group's course comes
from the catalog, every group has at least one session, and every grouped
session's `courseId` resolves in the catalog. -/
def groupsInv (courses : List Course) (gs : List (String × CourseGroup)) :
    Prop :=
  (∀ p ∈ gs, p.1 = p.2.course.id) ∧
  gs.Pairwise (fun p q => p.1 ≠ q.1) ∧
  (∀ p ∈ gs, p.2.course ∈ courses) ∧
  (∀ p ∈ gs, p.2.sessions ≠ []) ∧
  (∀ p ∈ gs, ∀ a ∈ p.2.sessions,
    ∃ c, courseMapGet courses a.courseId = some c)

/-! # Theorems -/

/-! ## Lookup lemmas -/

theorem lastMatch_eq_some {p : α → Bool} {l : List α} {a : α}
    (h : lastMatch p l = some a) : a ∈ l ∧ p a = true := by
  induction l with
  | nil => simp [lastMatch] at h
  | cons x xs ih =>
    rw [lastMatch] at h
    cases hx : lastMatch p xs with
    | some b =>
      rw [hx] at h
      injection h with h
      subst h
      exact ⟨List.mem_cons_of_mem _ (ih hx).1, (ih hx).2⟩
    | none =>
      rw [hx] at h
      by_cases hpx : p x = true
      · simp only [hpx, if_true] at h
        injection h with h
        subst h
        exact ⟨List.mem_cons_self _ _, hpx⟩
      · simp only [Bool.not_eq_true] at hpx
        simp [hpx] at h

theorem lastMatch_eq_none {p : α → Bool} {l : List α} :
    lastMatch p l = none ↔ ∀ a ∈ l, p a = false := by
  induction l with
  | nil => simp [lastMatch]
  | cons x xs ih =>
    rw [lastMatch]
    cases hx : lastMatch p xs with
    | some b =>
      simp only [List.mem_cons]
      constructor
      · intro h; cases h
      · intro h
        have hb := lastMatch_eq_some hx
        have := h b (Or.inr hb.1)
        rw [hb.2] at this
        cases this
    | none =>
      by_cases hpx : p x = true
      · simp [hpx]
      · simp only [Bool.not_eq_true] at hpx
        simp [hpx, ih.mp hx]
        intro a ha
        exact ih.mp hx a ha

/-! ## C1: preservation of the cell-uniqueness invariant by the store
operations -/

theorem cellUnique_map {l : List Assignment} {f : Assignment → Assignment}
    (hf : ∀ a, (f a).day = a.day ∧ (f a).slotId = a.slotId)
    (h : cellUnique l) : cellUnique (l.map f) := by
  refine List.Pairwise.map f ?_ h
  intro a b hab hcon
  apply hab
  constructor
  · rw [← (hf a).1, ← (hf b).1]; exact hcon.1
  · rw [← (hf a).2, ← (hf b).2]; exact hcon.2

theorem cellUnique_filter {l : List Assignment} (q : Assignment → Bool)
    (h : cellUnique l) : cellUnique (l.filter q) :=
  List.Pairwise.sublist (List.filter_sublist l) h

theorem place_cellUnique (st : AppState) (d : Day) (s c n : String) (t : Nat)
    (cf : Bool) (h : cellUnique st.assigns) :
    cellUnique (placeSelectedCourseToCell st d s c n t cf).assigns := by
  rw [placeSelectedCourseToCell]
  by_cases h1 : (c == "") = true
  · simp only [h1, if_true]; exact h
  · simp only [h1, if_false, Bool.false_eq_true]
    cases hcm : courseMapGet st.courses c with
    | none => exact h
    | some course =>
      cases ham : assignMapGet st.assigns d s with
      | some ex =>
        by_cases hcf : cf = true
        · simp only [hcf, Bool.not_true, if_false, Bool.false_eq_true]
          exact cellUnique_map (fun a => by by_cases hid : (a.id == ex.id) = true <;> simp [hid]) h
        · simp only [Bool.not_eq_true] at hcf
          simp [hcf]
          exact h
      | none =>
        simp only []
        rw [cellUnique, List.pairwise_append]
        refine ⟨h, List.pairwise_singleton _ _, ?_⟩
        intro a ha b hb
        simp only [List.mem_singleton] at hb
        subst hb
        intro hcon
        have := lastMatch_eq_none.mp ham a ha
        simp only at hcon
        rw [hcon.1, hcon.2] at this
        simp at this

theorem removeA_cellUnique (st : AppState) (d : Day) (s : String) (cf : Bool)
    (h : cellUnique st.assigns) :
    cellUnique (removeAssignmentFromCell st d s cf).assigns := by
  rw [removeAssignmentFromCell]
  cases assignMapGet st.assigns d s with
  | none => exact h
  | some sel =>
    by_cases hcf : cf = true
    · simp only [hcf, Bool.not_true, if_false, Bool.false_eq_true]
      exact cellUnique_filter _ h
    · simp only [Bool.not_eq_true] at hcf
      simp [hcf]
      exact h

theorem saveSlotEdits_cellUnique (st : AppState) (d : Day) (s : String)
    (ct : ClassType) (r p : String) (h : cellUnique st.assigns) :
    cellUnique (saveSlotEdits st d s ct r p).assigns := by
  rw [saveSlotEdits]
  cases assignMapGet st.assigns d s with
  | none => exact h
  | some sel =>
    exact cellUnique_map (fun a => by by_cases hid : (a.id == sel.id) = true <;> simp [hid]) h

theorem deleteCourse_cellUnique (st : AppState) (i : String) (cf : Bool)
    (h : cellUnique st.assigns) : cellUnique (deleteCourse st i cf).assigns := by
  rw [deleteCourse]
  cases courseMapGet st.courses i with
  | none => exact h
  | some _ =>
    by_cases hcf : cf = true
    · simp only [hcf, Bool.not_true, if_false, Bool.false_eq_true]
      exact cellUnique_filter _ h
    · simp only [Bool.not_eq_true] at hcf
      simp [hcf]
      exact h

theorem deleteSlot_cellUnique (st : AppState) (i : String) (cf : Bool)
    (h : cellUnique st.assigns) : cellUnique (deleteSlot st i cf).assigns := by
  rw [deleteSlot]
  by_cases hcf : cf = true
  · simp only [hcf, Bool.not_true, if_false, Bool.false_eq_true]
    exact cellUnique_filter _ h
  · simp only [Bool.not_eq_true] at hcf
    simp [hcf]
    exact h

theorem reset_cellUnique (st : AppState) (cf : Bool)
    (h : cellUnique st.assigns) : cellUnique (resetToDefaults st cf).assigns := by
  rw [resetToDefaults]
  by_cases hcf : cf = true
  · simp only [hcf, Bool.not_true, if_false, Bool.false_eq_true]
    exact cellUnique_filter _ h
  · simp only [Bool.not_eq_true] at hcf
    simp [hcf]
    exact h

theorem applyOp_cellUnique (st : AppState) (op : Op)
    (h : cellUnique st.assigns) : cellUnique (applyOp st op).assigns := by
  cases op with
  | place d s c n t cf => exact place_cellUnique st d s c n t cf h
  | removeA d s cf => exact removeA_cellUnique st d s cf h
  | updateFields d s ct r p => exact saveSlotEdits_cellUnique st d s ct r p h
  | delCourse i cf => exact deleteCourse_cellUnique st i cf h
  | delSlot i cf => exact deleteSlot_cellUnique st i cf h
  | reset cf => exact reset_cellUnique st cf h

theorem cellUniqueB_iff {l : List Assignment} :
    cellUniqueB l = true ↔ cellUnique l := by
  induction l with
  | nil => simp [cellUniqueB, cellUnique]
  | cons a as ih =>
    rw [cellUniqueB, cellUnique, List.pairwise_cons]
    rw [Bool.and_eq_true, List.all_eq_true, ih]
    constructor
    · rintro ⟨h1, h2⟩
      refine ⟨?_, h2⟩
      intro b hb hcon
      have := h1 b hb
      rw [hcon.1, hcon.2] at this
      simp at this
    · rintro ⟨h1, h2⟩
      refine ⟨?_, h2⟩
      intro b hb
      have := h1 b hb
      by_cases hd : a.day = b.day
      · by_cases hs : a.slotId = b.slotId
        · exact absurd ⟨hd, hs⟩ this
        · simp [hs]
      · simp [hd]

/-- C1 (counterexample): the claim quantifies over **every** state reachable
from a load, *including a load that runs the legacy migration* — but the
migration synthesizes one assignment per valid legacy entry without any
per-cell deduplication, so a legacy array holding two entries for the same
`(Mon, "09-11")` cell loads into a state in which two distinct assignments
share that cell.  The reachable state with the empty operation sequence
already violates the invariant. -/
theorem migratedLoad_violates_cellUnique :
    ¬ cellUnique
      (applyOps (loadedState DEFAULT_SLOTS fresh0 0 [entryDupA, entryDupB])
        []).assigns := by
  intro h
  rw [← cellUniqueB_iff] at h
  have hb : cellUniqueB
      (applyOps (loadedState DEFAULT_SLOTS fresh0 0 [entryDupA, entryDupB])
        []).assigns = false := by decide
  rw [hb] at h
  cases h

/-- C1 (amended): every store operation of the claim (`placeAssignment`,
`removeAssignment`, `updateAssignmentFields`, `deleteCourse`, `deleteSlot`,
`resetToDefaults`) preserves cell-uniqueness, so every state reachable by any
operation sequence from a load whose initial collections satisfy the
invariant (in particular a fresh load with empty collections) satisfies it;
a load itself, however, does not establish the invariant. -/
theorem cellUnique_preserved_by_ops (st : AppState) (ops : List Op)
    (h : cellUnique st.assigns) : cellUnique (applyOps st ops).assigns := by
  induction ops generalizing st with
  | nil => exact h
  | cons op rest ih => exact ih (applyOp st op) (applyOp_cellUnique st op h)

/-- C1 (witness): the preservation theorem applied to the fresh-load state
and a concrete operation sequence that places, edits and deletes. -/
theorem cellUnique_preserved_by_ops_witness :
    cellUnique (AppState.mk DEFAULT_SLOTS [courseA, courseB] []).assigns ∧
    cellUnique (applyOps (AppState.mk DEFAULT_SLOTS [courseA, courseB] [])
      [Op.place .Mon "09-11" "cA" "n1" 1 true,
       Op.place .Mon "09-11" "cB" "n2" 2 true,
       Op.updateFields .Mon "09-11" .LAB "A1" "Smith",
       Op.reset true]).assigns :=
  ⟨List.Pairwise.nil,
   cellUnique_preserved_by_ops _ _ List.Pairwise.nil⟩

/-! ## Migration lemmas (C2, C3) -/

theorem migStep_eq_migCore (slots : List SlotDef) (fresh : Nat → String)
    (now : Nat) (st : MigState) (x : JValue) :
    migStep slots fresh now st x =
      match legacyValid x with
      | none => st
      | some (t, d, sid) => migCore slots fresh now st x t d sid := by
  cases hobj : (x.truthy && x.typeofObject) with
  | false => simp [migStep, legacyValid, hobj]
  | true =>
    cases ht : x.getStr "title" with
    | none =>
      cases hs1 : x.getStr "slotId" with
      | none =>
        cases hd : parseDay (x.getField "day") with
        | none => simp [migStep, legacyValid, hobj, ht, hs1, hd]
        | some d => simp [migStep, legacyValid, hobj, ht, hs1, hd, migCore]
      | some sid =>
        cases hd : parseDay (x.getField "day") with
        | none => simp [migStep, legacyValid, hobj, ht, hs1, hd]
        | some d => simp [migStep, legacyValid, hobj, ht, hs1, hd, migCore]
    | some t =>
      cases hs1 : x.getStr "slotId" with
      | none =>
        cases hd : parseDay (x.getField "day") with
        | none => simp [migStep, legacyValid, hobj, ht, hs1, hd]
        | some d =>
          by_cases hempty : (jsTrim t == "" || ((x.getStr "slot").getD "") == "") = true
          · simp [migStep, legacyValid, hobj, ht, hs1, hd, hempty]
          · simp only [Bool.not_eq_true] at hempty
            simp [migStep, legacyValid, hobj, ht, hs1, hd, hempty, migCore]
      | some sid =>
        cases hd : parseDay (x.getField "day") with
        | none => simp [migStep, legacyValid, hobj, ht, hs1, hd]
        | some d =>
          by_cases hempty : (jsTrim t == "" || sid == "") = true
          · simp [migStep, legacyValid, hobj, ht, hs1, hd, hempty]
          · simp only [Bool.not_eq_true] at hempty
            simp [migStep, legacyValid, hobj, ht, hs1, hd, hempty, migCore]

theorem lookup_append_some [BEq α] {l1 l2 : List (α × β)} {t : α} {v : β}
    (h : l1.lookup t = some v) : (l1 ++ l2).lookup t = some v := by
  induction l1 with
  | nil => cases h
  | cons p l ih =>
    obtain ⟨k, b⟩ := p
    rw [List.cons_append]
    rw [List.lookup] at h ⊢
    cases hkt : (t == k) <;> simp only [hkt] at h ⊢
    · exact ih h
    · exact h

theorem lookup_append_none [BEq α] {l1 : List (α × β)} (l2 : List (α × β))
    {t : α} (h : l1.lookup t = none) :
    (l1 ++ l2).lookup t = l2.lookup t := by
  induction l1 with
  | nil => rfl
  | cons p l ih =>
    obtain ⟨k, b⟩ := p
    rw [List.cons_append]
    rw [List.lookup] at h ⊢
    cases hkt : (t == k) <;> simp only [hkt] at h ⊢
    · exact ih h
    · cases h

theorem migCore_of_found {slots : List SlotDef} {fresh : Nat → String}
    {now : Nat} {st : MigState} {x : JValue} {t : String} {d : Day}
    {sid : String} {c0 : Course} (hf : st.byTitle.lookup t = some c0) :
    (migCore slots fresh now st x t d sid).courses = st.courses ∧
    (migCore slots fresh now st x t d sid).byTitle = st.byTitle := by
  rw [migCore]
  simp only [hf]
  split <;> simp

theorem migCore_of_new {slots : List SlotDef} {fresh : Nat → String}
    {now : Nat} {st : MigState} {x : JValue} {t : String} {d : Day}
    {sid : String} (hf : st.byTitle.lookup t = none) :
    (migCore slots fresh now st x t d sid).courses =
      st.courses ++ [{
        id := fresh st.ctr, title := t,
        defaultProfessors := entryProfessors x,
        courseUrl := entryCourseUrl x, createdAt := now }] ∧
    (migCore slots fresh now st x t d sid).byTitle =
      st.byTitle ++ [(t, {
        id := fresh st.ctr, title := t,
        defaultProfessors := entryProfessors x,
        courseUrl := entryCourseUrl x, createdAt := now })] := by
  rw [migCore]
  simp only [hf, entryProfessors, entryCourseUrl]
  split <;> simp

theorem migCore_assigns {slots : List SlotDef} {fresh : Nat → String}
    {now : Nat} {st : MigState} {x : JValue} {t : String} {d : Day}
    {sid : String} {a : Assignment}
    (h : a ∈ (migCore slots fresh now st x t d sid).assigns) :
    a ∈ st.assigns ∨ slots.any (fun s => s.id == a.slotId) = true := by
  rw [migCore] at h
  cases hf : st.byTitle.lookup t <;> simp only [hf] at h <;> split at h
  case none.isTrue => exact Or.inl h
  case none.isFalse hcond =>
    simp only [List.mem_append, List.mem_singleton] at h
    rcases h with h | h
    · exact Or.inl h
    · subst h
      simp only [Bool.not_eq_true', Bool.not_eq_false] at hcond
      exact Or.inr hcond
  case some.isTrue => exact Or.inl h
  case some.isFalse hcond =>
    simp only [List.mem_append, List.mem_singleton] at h
    rcases h with h | h
    · exact Or.inl h
    · subst h
      simp only [Bool.not_eq_true', Bool.not_eq_false] at hcond
      exact Or.inr hcond

theorem migStep_courses_mono {slots : List SlotDef} {fresh : Nat → String}
    {now : Nat} {st : MigState} {x : JValue} {c : Course}
    (h : c ∈ st.courses) : c ∈ (migStep slots fresh now st x).courses := by
  rw [migStep_eq_migCore]
  cases hlv : legacyValid x with
  | none => exact h
  | some v =>
    obtain ⟨t, d, sid⟩ := v
    cases hf : st.byTitle.lookup t with
    | some c0 => rw [(migCore_of_found hf).1]; exact h
    | none => rw [(migCore_of_new hf).1]; exact List.mem_append_left _ h

theorem migStep_byTitle_mono {slots : List SlotDef} {fresh : Nat → String}
    {now : Nat} {st : MigState} {x : JValue} {t : String} {v : Course}
    (h : st.byTitle.lookup t = some v) :
    (migStep slots fresh now st x).byTitle.lookup t = some v := by
  rw [migStep_eq_migCore]
  cases hlv : legacyValid x with
  | none => exact h
  | some w =>
    obtain ⟨t', d, sid⟩ := w
    cases hf : st.byTitle.lookup t' with
    | some c0 => rw [(migCore_of_found hf).2]; exact h
    | none => rw [(migCore_of_new hf).2]; exact lookup_append_some h

theorem migStep_byTitle_after (slots : List SlotDef) (fresh : Nat → String)
    (now : Nat) (st : MigState) {x : JValue} {t : String} {d : Day}
    {sid : String} (hlv : legacyValid x = some (t, d, sid)) :
    ∃ v, (migStep slots fresh now st x).byTitle.lookup t = some v := by
  rw [migStep_eq_migCore, hlv]
  cases hf : st.byTitle.lookup t with
  | some c0 => rw [(migCore_of_found hf).2]; exact ⟨c0, hf⟩
  | none =>
    rw [(migCore_of_new hf).2, lookup_append_none _ hf]
    simp [List.lookup]

theorem migStep_inv {slots : List SlotDef} {fresh : Nat → String}
    {now : Nat} {st : MigState} {x : JValue}
    (hinv : ∀ p ∈ st.byTitle, p.2 ∈ st.courses ∧ p.2.title = p.1) :
    ∀ p ∈ (migStep slots fresh now st x).byTitle,
      p.2 ∈ (migStep slots fresh now st x).courses ∧ p.2.title = p.1 := by
  rw [migStep_eq_migCore]
  cases hlv : legacyValid x with
  | none => exact hinv
  | some w =>
    obtain ⟨t, d, sid⟩ := w
    cases hf : st.byTitle.lookup t with
    | some c0 =>
      rw [(migCore_of_found hf).1, (migCore_of_found hf).2]
      exact hinv
    | none =>
      rw [(migCore_of_new hf).1, (migCore_of_new hf).2]
      intro p hp
      rcases List.mem_append.mp hp with hp | hp
      · exact ⟨List.mem_append_left _ (hinv p hp).1, (hinv p hp).2⟩
      · rw [List.mem_singleton] at hp
        subst hp
        exact ⟨List.mem_append_right _ (List.mem_singleton_self _), rfl⟩

theorem lookup_mem [BEq α] [LawfulBEq α] {l : List (α × β)} {t : α} {v : β}
    (h : l.lookup t = some v) : (t, v) ∈ l := by
  induction l with
  | nil => cases h
  | cons p l ih =>
    obtain ⟨k, b⟩ := p
    rw [List.lookup] at h
    cases hkt : (t == k) <;> simp only [hkt] at h
    · exact List.mem_cons_of_mem _ (ih h)
    · injection h with h
      subst h
      have : t = k := eq_of_beq hkt
      subst this
      exact List.mem_cons_self _ _

theorem migStep_assigns {slots : List SlotDef} {fresh : Nat → String}
    {now : Nat} {st : MigState} {x : JValue} {a : Assignment}
    (h : a ∈ (migStep slots fresh now st x).assigns) :
    a ∈ st.assigns ∨ slots.any (fun s => s.id == a.slotId) = true := by
  rw [migStep_eq_migCore] at h
  cases hlv : legacyValid x with
  | none => rw [hlv] at h; exact Or.inl h
  | some w =>
    obtain ⟨t, d, sid⟩ := w
    rw [hlv] at h
    exact migCore_assigns h

theorem foldl_migStep_courses_mono' {slots : List SlotDef}
    {fresh : Nat → String} {now : Nat} (data : List JValue) (st : MigState)
    {c : Course} (h : c ∈ st.courses) :
    c ∈ (data.foldl (migStep slots fresh now) st).courses := by
  induction data generalizing st with
  | nil => exact h
  | cons x rest ih => exact ih _ (migStep_courses_mono h)

theorem foldl_migStep_byTitle_mono {slots : List SlotDef}
    {fresh : Nat → String} {now : Nat} (data : List JValue) (st : MigState)
    {t : String} {v : Course} (h : st.byTitle.lookup t = some v) :
    (data.foldl (migStep slots fresh now) st).byTitle.lookup t = some v := by
  induction data generalizing st with
  | nil => exact h
  | cons x rest ih => exact ih _ (migStep_byTitle_mono h)

theorem foldl_migStep_inv {slots : List SlotDef} {fresh : Nat → String}
    {now : Nat} (data : List JValue) (st : MigState)
    (h : ∀ p ∈ st.byTitle, p.2 ∈ st.courses ∧ p.2.title = p.1) :
    ∀ p ∈ (data.foldl (migStep slots fresh now) st).byTitle,
      p.2 ∈ (data.foldl (migStep slots fresh now) st).courses ∧
      p.2.title = p.1 := by
  induction data generalizing st with
  | nil => exact h
  | cons x rest ih => exact ih _ (migStep_inv h)

theorem foldl_migStep_assigns {slots : List SlotDef} {fresh : Nat → String}
    {now : Nat} (data : List JValue) (st : MigState) {a : Assignment}
    (h : a ∈ (data.foldl (migStep slots fresh now) st).assigns) :
    a ∈ st.assigns ∨ slots.any (fun s => s.id == a.slotId) = true := by
  induction data generalizing st with
  | nil => exact Or.inl h
  | cons x rest ih =>
    rw [List.foldl_cons] at h
    rcases ih _ h with h2 | h2
    · exact migStep_assigns h2
    · exact Or.inr h2

theorem foldl_migStep_courses_char {slots : List SlotDef}
    {fresh : Nat → String} {now : Nat} :
    ∀ (data : List JValue) (st : MigState) {c : Course},
      c ∈ (data.foldl (migStep slots fresh now) st).courses →
      c ∈ st.courses ∨
        (st.byTitle.lookup c.title = none ∧
         ∃ x, firstEntryForTitle data c.title = some x ∧
           c.defaultProfessors = entryProfessors x ∧
           c.courseUrl = entryCourseUrl x) := by
  intro data
  induction data with
  | nil => intro st c h; exact Or.inl h
  | cons x rest ih =>
    intro st c h
    rw [List.foldl_cons] at h
    rcases ih _ h with hmem | ⟨hlk, y, hy, hprops⟩
    · rw [migStep_eq_migCore] at hmem
      cases hlv : legacyValid x with
      | none => rw [hlv] at hmem; exact Or.inl hmem
      | some w =>
        obtain ⟨t, d, sid⟩ := w
        rw [hlv] at hmem
        cases hf : st.byTitle.lookup t with
        | some c0 => rw [(migCore_of_found hf).1] at hmem; exact Or.inl hmem
        | none =>
          rw [(migCore_of_new hf).1] at hmem
          rcases List.mem_append.mp hmem with hmem | hmem
          · exact Or.inl hmem
          · rw [List.mem_singleton] at hmem
            subst hmem
            refine Or.inr ⟨hf, x, ?_, rfl, rfl⟩
            simp [firstEntryForTitle, List.find?_cons, hlv]
    · refine Or.inr ⟨?_, y, ?_, hprops⟩
      · cases hlk0 : st.byTitle.lookup c.title with
        | none => rfl
        | some v =>
          rw [migStep_byTitle_mono hlk0] at hlk
          cases hlk
      · rw [firstEntryForTitle, List.find?_cons]
        cases hlv : legacyValid x with
        | none => simpa [firstEntryForTitle, hlv] using hy
        | some w =>
          obtain ⟨t, d, sid⟩ := w
          by_cases ht : (t == c.title) = true
          · exfalso
            have := eq_of_beq ht
            subst this
            obtain ⟨v, hv⟩ := migStep_byTitle_after slots fresh now st hlv
            rw [hv] at hlk
            cases hlk
          · simp only [Bool.not_eq_true] at ht
            simpa [firstEntryForTitle, hlv, ht] using hy

/-- C2 (counterexample): the migrator takes the defaults from the *first
valid entry* for a title, not from the first entry with a *non-empty* value.
With two valid entries for title "A" — the first with empty `professors`,
the second carrying "Smith" — the synthesized course keeps the empty string,
although the claim requires "Smith" (empty only when no entry carries a
non-empty value). -/
theorem migration_first_nonempty_does_not_win :
    (migrateEntries DEFAULT_SLOTS fresh0 0 [entryProfA1, entryProfA2]).1.map
      (fun c => (c.title, c.defaultProfessors)) = [("A", "")] ∧
    (legacyValid entryProfA2).map (fun v => v.1) = some "A" ∧
    entryProfessors entryProfA2 = "Smith" := by decide

/-- C2 (amended): every course synthesized by the migration takes its
`defaultProfessors` and `courseUrl` verbatim from the *first* valid legacy
entry bearing its (trimmed) title in scan order — even when that entry's
value is empty and a later entry for the same title carries a non-empty
one. -/
theorem migration_defaults_from_first_valid_entry (slots : List SlotDef)
    (fresh : Nat → String) (now : Nat) (data : List JValue) (c : Course)
    (h : c ∈ (migrateEntries slots fresh now data).1) :
    ∃ x, firstEntryForTitle data c.title = some x ∧
      c.defaultProfessors = entryProfessors x ∧
      c.courseUrl = entryCourseUrl x := by
  rw [migrateEntries] at h
  rcases foldl_migStep_courses_char data _ h with hmem | ⟨_, hx⟩
  · cases hmem
  · exact hx

/-- C2 (witness): the amended theorem applied to the course synthesized for
title "A" from the two-entry scenario. -/
theorem migration_defaults_from_first_valid_entry_witness :
    ({ id := "id0", title := "A", defaultProfessors := "", courseUrl := "",
       createdAt := 0 } : Course) ∈
      (migrateEntries DEFAULT_SLOTS fresh0 0 [entryProfA1, entryProfA2]).1 ∧
    ∃ x, firstEntryForTitle [entryProfA1, entryProfA2] "A" = some x ∧
      ("" : String) = entryProfessors x ∧ ("" : String) = entryCourseUrl x :=
  ⟨by decide,
   migration_defaults_from_first_valid_entry DEFAULT_SLOTS fresh0 0
     [entryProfA1, entryProfA2]
     { id := "id0", title := "A", defaultProfessors := "", courseUrl := "",
       createdAt := 0 } (by decide)⟩

/-- C3 (counterexample): a legacy entry that is valid (non-empty title,
recognized day, non-empty slot id) but references the unknown slot "zz"
yields no Assignment — yet it *does* synthesize a Course for its title,
because the course is created before the slot-existence check; the claim's
"no record ... (no Assignment and no synthesized Course)" is wrong about the
course, and the nonzero course count even makes the migration succeed. -/
theorem migration_unknown_slot_still_creates_course :
    legacyValid entryGoneSlot = some ("A", Day.Mon, "zz") ∧
    DEFAULT_SLOTS.all (fun s => s.id != "zz") = true ∧
    (migrateEntries DEFAULT_SLOTS fresh0 0 [entryGoneSlot]).1.map
      (fun c => c.title) = ["A"] ∧
    (migrateEntries DEFAULT_SLOTS fresh0 0 [entryGoneSlot]).2 = [] := by
  decide

/-- C3 (amended): an entry referencing a slot id absent from the registry is
dropped silently *as far as assignments are concerned* — every migrated
assignment references a registry slot (and the total migration functions
raise no error) — but each valid entry still contributes a synthesized
Course for its title. -/
theorem migration_drops_only_assignments_for_unknown_slots
    (slots : List SlotDef) (fresh : Nat → String) (now : Nat)
    (data : List JValue) :
    (∀ a ∈ (migrateEntries slots fresh now data).2,
       slots.any (fun s => s.id == a.slotId) = true) ∧
    (∀ x ∈ data, ∀ t d sid, legacyValid x = some (t, d, sid) →
       ∃ c ∈ (migrateEntries slots fresh now data).1, c.title = t) := by
  constructor
  · intro a ha
    rw [migrateEntries] at ha
    rcases foldl_migStep_assigns data _ ha with h | h
    · cases h
    · exact h
  · intro x hx t d sid hlv
    obtain ⟨pre, post, rfl⟩ := List.append_of_mem hx
    rw [migrateEntries]
    simp only [List.foldl_append, List.foldl_cons]
    obtain ⟨v, hv⟩ :=
      migStep_byTitle_after slots fresh now
        (pre.foldl (migStep slots fresh now) ⟨[], [], [], 0⟩) hlv
    have hfin := @foldl_migStep_byTitle_mono slots fresh now post _ _ _ hv
    have hinv := @foldl_migStep_inv slots fresh now post
      (migStep slots fresh now (pre.foldl (migStep slots fresh now)
        ⟨[], [], [], 0⟩) x) ?_
    · have hmem := lookup_mem hfin
      exact ⟨v, (hinv _ hmem).1, (hinv _ hmem).2⟩
    · intro p hp
      have h0 := @foldl_migStep_inv slots fresh now pre ⟨[], [], [], 0⟩
        (by intro p hp; cases hp)
      exact migStep_inv h0 p hp

/-- C3 (witness): the amended theorem at the unknown-slot scenario. -/
theorem migration_drops_only_assignments_witness :
    entryGoneSlot ∈ [entryGoneSlot] ∧
    legacyValid entryGoneSlot = some ("A", Day.Mon, "zz") ∧
    ∃ c ∈ (migrateEntries DEFAULT_SLOTS fresh0 0 [entryGoneSlot]).1,
      c.title = "A" :=
  ⟨List.mem_singleton_self _, by decide,
   (migration_drops_only_assignments_for_unknown_slots DEFAULT_SLOTS fresh0 0
     [entryGoneSlot]).2 entryGoneSlot (List.mem_singleton_self _) "A" Day.Mon
     "zz" (by decide)⟩

/-! ## C7: addCourse (the add branch of `upsertCourse`) -/

/-- C7 (counterexample): the duplicate-title check excludes every course
whose id equals the form id, and in add mode the form id is the empty
string — so a stored course whose id is `""` (reachable because the
normalized-key load `JSON.parse`s the catalog without validation) escapes
the check: adding "a" with such a duplicate present *succeeds* and appends,
although the claim requires the operation to fail and leave state
unchanged. -/
theorem addCourse_duplicate_check_misses_empty_id :
    (upsertCourse stEmptyIdCourse "" "a" "" "" "n1" 3).courses.map
      (fun c => c.title) = ["a", "a"] ∧
    ∃ c ∈ stEmptyIdCourse.courses,
      jsToLower (jsTrim c.title) = jsToLower (jsTrim "a") := by decide

/-- C7 (amended): with a fresh generated id, `addCourse` fails — leaving the
whole state unchanged — exactly when the trimmed title is empty or some
existing course *with a non-empty id* (the empty id being the sentinel that
marks "the course being edited" in add mode) has the same trimmed title
case-insensitively; otherwise it appends exactly one course carrying the
trimmed fields, the fresh id and the creation timestamp, and touches nothing
else. -/
theorem addCourse_spec (st : AppState) (t profs url newId : String)
    (now : Nat) (hfresh : newId ∉ st.courses.map (fun c => c.id)) :
    ((jsTrim t = "" ∨ ∃ c ∈ st.courses,
        jsToLower (jsTrim c.title) = jsToLower (jsTrim t) ∧ c.id ≠ "") →
      upsertCourse st "" t profs url newId now = st) ∧
    (¬(jsTrim t = "" ∨ ∃ c ∈ st.courses,
        jsToLower (jsTrim c.title) = jsToLower (jsTrim t) ∧ c.id ≠ "") →
      (upsertCourse st "" t profs url newId now).courses =
        st.courses ++ [{
          id := newId, title := jsTrim t, defaultProfessors := jsTrim profs,
          courseUrl := jsTrim url, createdAt := now }] ∧
      (upsertCourse st "" t profs url newId now).assigns = st.assigns ∧
      (upsertCourse st "" t profs url newId now).slots = st.slots ∧
      ∀ c ∈ st.courses, c.id ≠ newId) := by
  by_cases h1 : (jsTrim t == "") = true
  · have h1' : jsTrim t = "" := by simpa using h1
    constructor
    · intro hF
      rw [upsertCourse]
      simp [h1]
    · intro hc
      exact absurd (Or.inl h1') hc
  · have h1' : ¬ jsTrim t = "" := by simpa using h1
    by_cases h2 : (st.courses.any fun c =>
        jsToLower (jsTrim c.title) == jsToLower (jsTrim t) && c.id != "") = true
    · constructor
      · intro hF
        rw [upsertCourse]
        simp only [Bool.not_eq_true] at h1
        simp [h1, h2]
      · intro hc
        exfalso
        apply hc
        right
        obtain ⟨c, hcmem, hcf⟩ := List.any_eq_true.mp h2
        rw [Bool.and_eq_true] at hcf
        exact ⟨c, hcmem, by simpa using hcf.1, by simpa using hcf.2⟩
    · have hres : upsertCourse st "" t profs url newId now =
          { st with courses := st.courses ++ [{
              id := newId, title := jsTrim t,
              defaultProfessors := jsTrim profs, courseUrl := jsTrim url,
              createdAt := now }] } := by
        rw [upsertCourse]
        simp only [Bool.not_eq_true] at h1
        simp [h1, h2]
      constructor
      · intro hF
        exfalso
        rcases hF with hF | ⟨c, hc, he, hne⟩
        · exact h1' hF
        · apply h2
          rw [List.any_eq_true]
          exact ⟨c, hc, by simp [he, hne]⟩
      · intro _
        rw [hres]
        refine ⟨rfl, rfl, rfl, ?_⟩
        intro c hc hcid
        exact hfresh (List.mem_map.mpr ⟨c, hc, hcid⟩)

/-- C7 (witness): a successful add onto a one-course catalog. -/
theorem addCourse_spec_witness :
    ("n9" ∉ ([courseA].map (fun c => c.id))) ∧
    (upsertCourse
      { slots := DEFAULT_SLOTS, courses := [courseA], assigns := [] }
      "" "B" "p" "u" "n9" 5).courses =
      [courseA] ++ [{
        id := "n9", title := jsTrim "B", defaultProfessors := jsTrim "p",
        courseUrl := jsTrim "u", createdAt := 5 }] :=
  ⟨by decide,
   ((addCourse_spec
       { slots := DEFAULT_SLOTS, courses := [courseA], assigns := [] }
       "B" "p" "u" "n9" 5 (by decide)).2 (by decide)).1⟩

/-! ## C5: the confirmed conflict overwrite changes only the course
reference -/

/-- C5 (counterexample): the overwrite rewrites *every* assignment whose id
equals the occupant's id, and the claim quantifies over every state — so in
a (load-reachable, since the normalized-key load does not validate) state
where a second assignment in a different cell shares the occupant's id, that
other assignment's `courseId` changes too, contradicting "every other
assignment ... is unchanged". -/
theorem place_overwrite_rewrites_shared_ids :
    assignMapGet stDupIds.assigns .Mon "09-11" = some assignDupIdA ∧
    assignDupIdB.slotId = "11-13" ∧
    stDupIds.assigns.map (fun a => a.courseId) = ["cA", "cA"] ∧
    (placeSelectedCourseToCell stDupIds .Mon "09-11" "cB" "n1" 5 true).assigns.map
      (fun a => a.courseId) = ["cB", "cB"] := by decide

/-- C5 (amended): in any state whose assignment ids are pairwise distinct,
a confirmed placement of course B into an occupied cell `(day, slotId)`
replaces only the occupying assignment's `courseId` with B's id: its id,
day, slotId, classType, room, professors and createdAt are unchanged, every
other assignment is untouched (the surrounding list structure is preserved),
and the course and slot collections are unchanged. -/
theorem place_overwrite_frame (st : AppState) (d : Day)
    (s bId newId : String) (now : Nat) (ex : Assignment) (B : Course)
    (hids : (st.assigns.map (fun a => a.id)).Nodup)
    (hb : bId ≠ "")
    (hB : courseMapGet st.courses bId = some B)
    (hcell : assignMapGet st.assigns d s = some ex) :
    (placeSelectedCourseToCell st d s bId newId now true).slots = st.slots ∧
    (placeSelectedCourseToCell st d s bId newId now true).courses =
      st.courses ∧
    B.id = bId ∧
    ∃ l1 l2 ex',
      st.assigns = l1 ++ ex :: l2 ∧
      (placeSelectedCourseToCell st d s bId newId now true).assigns =
        l1 ++ ex' :: l2 ∧
      ex'.courseId = bId ∧ ex'.id = ex.id ∧ ex'.day = ex.day ∧
      ex'.slotId = ex.slotId ∧ ex'.classType = ex.classType ∧
      ex'.room = ex.room ∧ ex'.professors = ex.professors ∧
      ex'.createdAt = ex.createdAt := by
  have hbeq : (bId == "") = false := by simpa using hb
  have hres : placeSelectedCourseToCell st d s bId newId now true =
      { st with assigns := st.assigns.map (fun a =>
          if a.id == ex.id then { a with courseId := bId } else a) } := by
    rw [placeSelectedCourseToCell]
    simp [hbeq, hB, hcell]
  have hBid : B.id = bId := by
    have := (lastMatch_eq_some hB).2
    simpa using this
  obtain ⟨l1, l2, hsplit⟩ := List.append_of_mem (lastMatch_eq_some hcell).1
  have hnod : ex.id ∉ (l1.map (fun a => a.id) ++ l2.map (fun a => a.id)) := by
    have h0 : ((l1 ++ ex :: l2).map (fun a => a.id)).Nodup := by
      rw [← hsplit]; exact hids
    rw [List.map_append, List.map_cons] at h0
    exact (List.nodup_cons.mp (List.nodup_middle.mp h0)).1
  have hl1 : ∀ a ∈ l1, (a.id == ex.id) = false := by
    intro a ha
    rw [beq_eq_false_iff_ne]
    intro he
    exact hnod (List.mem_append_left _ (List.mem_map.mpr ⟨a, ha, he⟩))
  have hl2 : ∀ a ∈ l2, (a.id == ex.id) = false := by
    intro a ha
    rw [beq_eq_false_iff_ne]
    intro he
    exact hnod (List.mem_append_right _ (List.mem_map.mpr ⟨a, ha, he⟩))
  have hmapl1 : l1.map (fun a =>
      if a.id == ex.id then { a with courseId := bId } else a) = l1 := by
    conv_rhs => rw [← List.map_id l1]
    apply List.map_congr_left
    intro a ha
    simp [hl1 a ha]
  have hmapl2 : l2.map (fun a =>
      if a.id == ex.id then { a with courseId := bId } else a) = l2 := by
    conv_rhs => rw [← List.map_id l2]
    apply List.map_congr_left
    intro a ha
    simp [hl2 a ha]
  rw [hres]
  refine ⟨rfl, rfl, hBid, l1, l2, { ex with courseId := bId }, hsplit, ?_,
    rfl, rfl, rfl, rfl, rfl, rfl, rfl, rfl⟩
  rw [hsplit, List.map_append, List.map_cons, hmapl1, hmapl2]
  simp

/-- C5 (witness): the frame theorem on a one-assignment state, retargeting
the occupied `(Mon, "09-11")` cell from course A to course B. -/
theorem place_overwrite_frame_witness :
    ((([wfAssign] : List Assignment).map (fun a => a.id)).Nodup) ∧
    ((placeSelectedCourseToCell
        { slots := DEFAULT_SLOTS, courses := [courseA, courseB],
          assigns := [wfAssign] } .Mon "09-11" "cB" "n1" 9 true).slots =
      DEFAULT_SLOTS ∧
     (placeSelectedCourseToCell
        { slots := DEFAULT_SLOTS, courses := [courseA, courseB],
          assigns := [wfAssign] } .Mon "09-11" "cB" "n1" 9 true).courses =
      [courseA, courseB] ∧
     courseB.id = "cB" ∧
     ∃ l1 l2 ex',
       [wfAssign] = l1 ++ wfAssign :: l2 ∧
       (placeSelectedCourseToCell
          { slots := DEFAULT_SLOTS, courses := [courseA, courseB],
            assigns := [wfAssign] } .Mon "09-11" "cB" "n1" 9 true).assigns =
         l1 ++ ex' :: l2 ∧
       ex'.courseId = "cB" ∧ ex'.id = wfAssign.id ∧ ex'.day = wfAssign.day ∧
       ex'.slotId = wfAssign.slotId ∧ ex'.classType = wfAssign.classType ∧
       ex'.room = wfAssign.room ∧ ex'.professors = wfAssign.professors ∧
       ex'.createdAt = wfAssign.createdAt) :=
  ⟨by decide,
   place_overwrite_frame
     { slots := DEFAULT_SLOTS, courses := [courseA, courseB],
       assigns := [wfAssign] } .Mon "09-11" "cB" "n1" 9 wfAssign courseB
     (by decide) (by decide) (by decide) (by decide)⟩

/-! ## C8: the slot validator -/

theorem getStr_of_not_objLike {x : JValue}
    (h : (x.truthy && x.typeofObject) = false) (k : String) :
    x.getStr k = none := by
  cases x <;>
    simp_all [JValue.getStr, JValue.getField, JValue.truthy,
      JValue.typeofObject]

theorem getStr_jarr (elems : List JValue) (k : String) :
    (JValue.jarr elems).getStr k = none := rfl

theorem normalizeSlotsList_eq_filterMap (xs : List JValue) :
    normalizeSlotsList xs = xs.filterMap slotOfJValueSpec := by
  induction xs with
  | nil => rfl
  | cons x xs ih =>
    rw [normalizeSlotsList, List.filterMap_cons]
    by_cases hobj : (x.truthy && x.typeofObject) = true
    · cases hid : x.getStr "id" with
      | none =>
        have hspec : slotOfJValueSpec x = none := by
          rw [slotOfJValueSpec, hid]
        simp [hobj, hid, hspec, ih]
      | some i =>
        cases hst : x.getStr "start" with
        | none =>
          have hspec : slotOfJValueSpec x = none := by
            rw [slotOfJValueSpec, hid, hst]
          have hmm : isHHMM "" = false := rfl
          simp [hobj, hid, hst, hspec, hmm, ih]
        | some st' =>
          cases hen : x.getStr "end" with
          | none =>
            have hspec : slotOfJValueSpec x = none := by
              rw [slotOfJValueSpec, hid, hst, hen]
            have hmm : isHHMM "" = false := rfl
            simp [hobj, hid, hst, hen, hspec, hmm, ih]
          | some en =>
            by_cases h1 : i = ""
            · have hspec : slotOfJValueSpec x = none := by
                rw [slotOfJValueSpec, hid, hst, hen]
                simp [h1]
              simp [hobj, hid, hst, hen, hspec, h1, ih]
            · by_cases h2 : isHHMM st' = true
              · by_cases h3 : isHHMM en = true
                · have hspec : slotOfJValueSpec x = some
                      { id := i, start := st', endTime := en,
                        label := strOr ((x.getStr "label").getD "")
                          (st' ++ "–" ++ en) } := by
                    rw [slotOfJValueSpec, hid, hst, hen]
                    simp [h1, h2, h3]
                  have h1' : (i == "") = false := by
                    rw [beq_eq_false_iff_ne]; exact h1
                  simp [hobj, hid, hst, hen, hspec, h1', h2, h3, ih]
                · have hspec : slotOfJValueSpec x = none := by
                    rw [slotOfJValueSpec, hid, hst, hen]
                    simp [h1, h2, h3]
                  simp [hobj, hid, hst, hen, hspec, h3, ih]
              · have hspec : slotOfJValueSpec x = none := by
                  rw [slotOfJValueSpec, hid, hst, hen]
                  simp [h1, h2]
                simp [hobj, hid, hst, hen, hspec, h2, ih]
    · have hx : ∀ k, x.getStr k = none :=
        getStr_of_not_objLike (by simpa using hobj)
      have hspec : slotOfJValueSpec x = none := by
        rw [slotOfJValueSpec, hx "id"]
      simp only [Bool.not_eq_true] at hobj
      simp [hobj, hspec, ih]

/-- C8 (confirmed): `normalizeSlots` is total (it is a Lean function, so it
never throws); a non-array input yields `[]`; an array is filtered
elementwise by exactly the claim's acceptance rule (`slotOfJValueSpec`):
`id`/`start`/`end` must be strings with `id` non-empty and both times
matching `^([01]\d|2[0-3]):[0-5]\d$`; and whenever the raw `label` is absent
or not a string, the accepted slot's label is `start ++ "–" ++ end`
(en dash). -/
theorem normalizeSlots_spec (raw : JValue) :
    ((∀ xs, raw ≠ JValue.jarr xs) → normalizeSlots raw = []) ∧
    (∀ xs, raw = JValue.jarr xs →
      normalizeSlots raw = xs.filterMap slotOfJValueSpec) ∧
    (∀ x s, slotOfJValueSpec x = some s → x.getStr "label" = none →
      s.label = s.start ++ "–" ++ s.endTime) := by
  refine ⟨?_, ?_, ?_⟩
  · intro h
    cases raw with
    | jarr xs => exact absurd rfl (h xs)
    | jnull => rfl
    | jbool b => rfl
    | jnum n => rfl
    | jstr s => rfl
    | jobj fields => rfl
  · intro xs h
    subst h
    rw [normalizeSlots]
    exact normalizeSlotsList_eq_filterMap xs
  · intro x s hs hlab
    cases hid : x.getStr "id" with
    | none => simp [slotOfJValueSpec, hid] at hs
    | some i =>
      cases hst : x.getStr "start" with
      | none => simp [slotOfJValueSpec, hid, hst] at hs
      | some st' =>
        cases hen : x.getStr "end" with
        | none => simp [slotOfJValueSpec, hid, hst, hen] at hs
        | some en =>
          simp only [slotOfJValueSpec, hid, hst, hen] at hs
          by_cases hcond : i ≠ "" ∧ isHHMM st' = true ∧ isHHMM en = true
          · rw [if_pos hcond] at hs
            injection hs with hs
            subst hs
            simp [hlab, strOr]
          · rw [if_neg hcond] at hs
            cases hs

/-- C8 (witness): the array clause of the characterization applied to the
concrete stored value `rawDupSlotIds`. -/
theorem normalizeSlots_spec_witness :
    normalizeSlots rawDupSlotIds =
      [JValue.jobj [("id", .jstr "a"), ("start", .jstr "09:00"),
          ("end", .jstr "10:00")],
       JValue.jobj [("id", .jstr "a"), ("start", .jstr "10:00"),
          ("end", .jstr "11:00")]].filterMap slotOfJValueSpec :=
  (normalizeSlots_spec rawDupSlotIds).2.1 _ rfl

/-! ## C9: the slot-registry invariant -/

theorem slotOfJValueSpec_wf {x : JValue} {s : SlotDef}
    (h : slotOfJValueSpec x = some s) :
    s.id ≠ "" ∧ isHHMM s.start = true ∧ isHHMM s.endTime = true := by
  cases hid : x.getStr "id" with
  | none => simp [slotOfJValueSpec, hid] at h
  | some i =>
    cases hst : x.getStr "start" with
    | none => simp [slotOfJValueSpec, hid, hst] at h
    | some st' =>
      cases hen : x.getStr "end" with
      | none => simp [slotOfJValueSpec, hid, hst, hen] at h
      | some en =>
        simp only [slotOfJValueSpec, hid, hst, hen] at h
        by_cases hcond : i ≠ "" ∧ isHHMM st' = true ∧ isHHMM en = true
        · rw [if_pos hcond] at h
          injection h with h
          subst h
          exact hcond
        · rw [if_neg hcond] at h
          cases h

theorem normalizeSlots_wf (raw : JValue) :
    ∀ s ∈ normalizeSlots raw,
      s.id ≠ "" ∧ isHHMM s.start = true ∧ isHHMM s.endTime = true := by
  intro s hs
  cases raw with
  | jarr xs =>
    rw [normalizeSlots, normalizeSlotsList_eq_filterMap] at hs
    obtain ⟨x, _, hx⟩ := List.mem_filterMap.mp hs
    exact slotOfJValueSpec_wf hx
  | jnull => cases hs
  | jbool b => cases hs
  | jnum n => cases hs
  | jstr s' => cases hs
  | jobj fields => cases hs

theorem cons_set_perm (t : List α) :
    ∀ (k : Nat) (x b : α), t.get? k = some b →
      List.Perm (b :: t.set k x) (x :: t) := by
  induction t with
  | nil => intro k x b h; cases h
  | cons y t' ih =>
    intro k x b h
    cases k with
    | zero =>
      injection h with h
      subst h
      exact List.Perm.swap _ _ _
    | succ m =>
      exact ((List.Perm.swap y b (t'.set m x)).trans
        (List.Perm.cons y (ih m x b h))).trans (List.Perm.swap x y t')

theorem set_set_perm (l : List α) :
    ∀ (i j : Nat), i < j → ∀ (a b : α), l.get? i = some a →
      l.get? j = some b → List.Perm ((l.set i b).set j a) l := by
  induction l with
  | nil => intro i j hij a b ha hb; cases ha
  | cons x t ih =>
    intro i j hij a b ha hb
    cases i with
    | zero =>
      injection ha with ha
      subst ha
      cases j with
      | zero => omega
      | succ k => exact cons_set_perm t k x b hb
    | succ m =>
      cases j with
      | zero => omega
      | succ k => exact List.Perm.cons x (ih m k (by omega) a b ha hb)

theorem slotsWF_of_perm {l1 l2 : List SlotDef} (h : List.Perm l1 l2)
    (hw : slotsWF l2) : slotsWF l1 := by
  constructor
  · intro s hs
    exact hw.1 s (h.mem_iff.mp hs)
  · exact ((h.map (fun s => s.id)).nodup_iff).mpr hw.2

theorem moveSlot_perm (slots : List SlotDef) (id : String) (dir : Int)
    (hdir : dir = -1 ∨ dir = 1) : List.Perm (moveSlot slots id dir) slots := by
  unfold moveSlot
  split
  · exact List.Perm.refl _
  · rename_i i hidx
    dsimp only
    split
    · exact List.Perm.refl _
    · rename_i hb
      split
      · rename_i si sj hget1 hget2
        have hlow : ¬((i : Int) + dir < 0) := by
          intro hc
          exact hb (by simp [hc])
        have hhigh : ¬((i : Int) + dir ≥ (slots.length : Int)) := by
          intro hc
          exact hb (by simp [hc])
        rcases hdir with rfl | rfl
        · have hi1 : 1 ≤ i := by omega
          have hj : ((i : Int) + -1).toNat = i - 1 := by omega
          rw [hj] at hget2 ⊢
          rw [List.set_comm _ _ _ (by omega)]
          exact set_set_perm slots (i - 1) i (by omega) sj si hget2 hget1
        · have hj : ((i : Int) + 1).toNat = i + 1 := by omega
          rw [hj] at hget2 ⊢
          exact set_set_perm slots i (i + 1) (by omega) si sj hget1 hget2
      · exact List.Perm.refl _

/-- C9 (counterexample): the claim fails in two ways.  The validator accepts
stored arrays with duplicated slot ids verbatim (no uniqueness check), and
`updateSlot` applies an arbitrary patch, so the setup screen's controlled
inputs can store a `start` that is not `HH:MM` (the screen only re-validates
when leaving setup). -/
theorem slotRegistry_invariant_violations :
    (normalizeSlots rawDupSlotIds).map (fun s => s.id) = ["a", "a"] ∧
    (updateSlot DEFAULT_SLOTS "09-11"
        { start := some "garbage" }).map (fun s => isHHMM s.start) =
      [false, true, true, true] := by decide

/-- C9 (amended): every slot the validator accepts, and every default slot,
has a non-empty id and `HH:MM` times; the defaults additionally have unique
ids; `addSlot` with a fresh non-empty generated id and `moveSlot` (with the
source's `-1`/`1` directions) preserve the full invariant, and
`resetToDefaults` installs the default registry — but the validator does not
enforce id uniqueness, and `updateSlot` can store arbitrary field values. -/
theorem slotRegistry_invariant_spec :
    (∀ raw : JValue, ∀ s ∈ normalizeSlots raw,
       s.id ≠ "" ∧ isHHMM s.start = true ∧ isHHMM s.endTime = true) ∧
    slotsWF DEFAULT_SLOTS ∧
    (∀ (slots : List SlotDef) (newId : String), slotsWF slots → newId ≠ "" →
       newId ∉ slots.map (fun s => s.id) → slotsWF (addSlot slots newId)) ∧
    (∀ (slots : List SlotDef) (id : String) (dir : Int),
       dir = -1 ∨ dir = 1 → slotsWF slots → slotsWF (moveSlot slots id dir)) ∧
    (∀ st : AppState, (resetToDefaults st true).slots = DEFAULT_SLOTS) := by
  refine ⟨normalizeSlots_wf, ?_, ?_, ?_, ?_⟩
  · constructor
    · intro s hs
      fin_cases hs <;> refine ⟨?_, rfl, rfl⟩ <;> decide
    · decide
  · intro slots newId hwf hne hmem
    constructor
    · intro s hs
      rcases List.mem_append.mp hs with hs | hs
      · exact hwf.1 s hs
      · rw [List.mem_singleton] at hs
        subst hs
        exact ⟨hne, rfl, rfl⟩
    · rw [addSlot, List.map_append]
      refine List.Nodup.append hwf.2 (List.nodup_singleton _) ?_
      intro a ha hb
      simp only [List.map_cons, List.map_nil, List.mem_singleton] at hb
      subst hb
      exact hmem ha
  · intro slots id dir hdir hwf
    exact slotsWF_of_perm (moveSlot_perm slots id dir hdir) hwf
  · intro st
    rfl

/-- C9 (witness): adding a fresh slot to the (well-formed) defaults keeps
the registry well-formed. -/
theorem slotRegistry_invariant_spec_witness :
    slotsWF (addSlot DEFAULT_SLOTS "zz") :=
  slotRegistry_invariant_spec.2.2.1 DEFAULT_SLOTS "zz"
    slotRegistry_invariant_spec.2.1 (by decide) (by decide)

/-! ## Grouping lemmas (C4, C10) -/

theorem addToGroups_inv {courses : List Course}
    {gs : List (String × CourseGroup)} {c : Course} {a : Assignment}
    (hc : courseMapGet courses a.courseId = some c)
    (h : groupsInv courses gs) : groupsInv courses (addToGroups gs c a) := by
  obtain ⟨h1, h2, h3, h4, h5⟩ := h
  rw [addToGroups]
  by_cases hany : (gs.any fun p => p.1 == c.id) = true
  · rw [if_pos hany]
    refine ⟨?_, ?_, ?_, ?_, ?_⟩
    · intro p hp
      obtain ⟨q, hq, rfl⟩ := List.mem_map.mp hp
      by_cases hqc : (q.1 == c.id) = true
      · simp only [hqc, if_true]
        exact h1 q hq
      · simp only [hqc, Bool.false_eq_true, if_false]
        exact h1 q hq
    · refine List.Pairwise.map _ ?_ h2
      intro p q hpq
      by_cases hpc : (p.1 == c.id) = true <;>
        by_cases hqc : (q.1 == c.id) = true <;>
        simp only [hpc, hqc, Bool.false_eq_true, if_true, if_false] <;>
        exact hpq
    · intro p hp
      obtain ⟨q, hq, rfl⟩ := List.mem_map.mp hp
      by_cases hqc : (q.1 == c.id) = true
      · simp only [hqc, if_true]
        exact h3 q hq
      · simp only [hqc, Bool.false_eq_true, if_false]
        exact h3 q hq
    · intro p hp
      obtain ⟨q, hq, rfl⟩ := List.mem_map.mp hp
      by_cases hqc : (q.1 == c.id) = true
      · simp only [hqc, if_true]
        simp
      · simp only [hqc, Bool.false_eq_true, if_false]
        exact h4 q hq
    · intro p hp a' ha'
      obtain ⟨q, hq, rfl⟩ := List.mem_map.mp hp
      by_cases hqc : (q.1 == c.id) = true
      · simp only [hqc, if_true] at ha'
        rcases List.mem_append.mp ha' with ha' | ha'
        · exact h5 q hq a' ha'
        · rw [List.mem_singleton] at ha'
          subst ha'
          exact ⟨c, hc⟩
      · simp only [hqc, Bool.false_eq_true, if_false] at ha'
        exact h5 q hq a' ha'
  · rw [if_neg hany]
    have hknot : ∀ p ∈ gs, p.1 ≠ c.id := by
      intro p hp he
      apply hany
      rw [List.any_eq_true]
      exact ⟨p, hp, by simp [he]⟩
    refine ⟨?_, ?_, ?_, ?_, ?_⟩
    · intro p hp
      rcases List.mem_append.mp hp with hp | hp
      · exact h1 p hp
      · rw [List.mem_singleton] at hp
        subst hp
        rfl
    · rw [List.pairwise_append]
      refine ⟨h2, List.pairwise_singleton _ _, ?_⟩
      intro p hp q hq
      rw [List.mem_singleton] at hq
      subst hq
      exact hknot p hp
    · intro p hp
      rcases List.mem_append.mp hp with hp | hp
      · exact h3 p hp
      · rw [List.mem_singleton] at hp
        subst hp
        exact (lastMatch_eq_some hc).1
    · intro p hp
      rcases List.mem_append.mp hp with hp | hp
      · exact h4 p hp
      · rw [List.mem_singleton] at hp
        subst hp
        simp
    · intro p hp a' ha'
      rcases List.mem_append.mp hp with hp | hp
      · exact h5 p hp a' ha'
      · rw [List.mem_singleton] at hp
        subst hp
        rw [List.mem_singleton] at ha'
        subst ha'
        exact ⟨c, hc⟩

theorem buildGroups_inv (courses : List Course) (assigns : List Assignment) :
    groupsInv courses (buildGroups courses assigns) := by
  rw [buildGroups]
  have aux : ∀ (l : List Assignment) (gs : List (String × CourseGroup)),
      groupsInv courses gs →
      groupsInv courses (l.foldl (fun gs a =>
        match courseMapGet courses a.courseId with
        | none => gs
        | some c => addToGroups gs c a) gs) := by
    intro l
    induction l with
    | nil => intro gs h; exact h
    | cons a rest ih =>
      intro gs h
      rw [List.foldl_cons]
      apply ih
      cases hc : courseMapGet courses a.courseId with
      | none => simpa [hc] using h
      | some c =>
        simp only [hc]
        exact addToGroups_inv hc h
  exact aux assigns []
    ⟨(by intro p hp; cases hp), List.Pairwise.nil,
     (by intro p hp; cases hp), (by intro p hp; cases hp),
     (by intro p hp; cases hp)⟩

theorem stableInsert_perm (le : α → α → Bool) (a : α) (l : List α) :
    List.Perm (stableInsert le a l) (a :: l) := by
  induction l with
  | nil => exact List.Perm.refl _
  | cons b l ih =>
    rw [stableInsert]
    by_cases h : le b a = true
    · rw [if_pos h]
      exact (ih.cons b).trans (List.Perm.swap a b l)
    · rw [if_neg h]

theorem jsSort_perm (le : α → α → Bool) (l : List α) :
    List.Perm (jsSort le l) l := by
  have aux : ∀ (l acc : List α),
      List.Perm (l.foldl (fun acc x => stableInsert le x acc) acc)
        (l ++ acc) := by
    intro l
    induction l with
    | nil => intro acc; exact List.Perm.refl _
    | cons x l ih =>
      intro acc
      rw [List.foldl_cons]
      exact ((ih (stableInsert le x acc)).trans
        ((stableInsert_perm le x acc).append_left l)).trans
        List.perm_middle
  have := aux l []
  rw [List.append_nil] at this
  exact this

theorem sorted_stableInsert (le : α → α → Bool)
    (htrans : ∀ a b c, le a b = true → le b c = true → le a c = true)
    (htotal : ∀ a b, (le a b || le b a) = true) (a : α) (l : List α)
    (h : l.Pairwise (fun x y => le x y = true)) :
    (stableInsert le a l).Pairwise (fun x y => le x y = true) := by
  induction l with
  | nil => exact List.pairwise_singleton _ _
  | cons b l ih =>
    rw [stableInsert]
    rw [List.pairwise_cons] at h
    by_cases hba : le b a = true
    · rw [if_pos hba]
      rw [List.pairwise_cons]
      refine ⟨?_, ih h.2⟩
      intro y hy
      rcases List.mem_cons.mp ((stableInsert_perm le a l).mem_iff.mp hy) with
        rfl | hy
      · exact hba
      · exact h.1 y hy
    · rw [if_neg hba]
      have hab : le a b = true := by
        have htot := htotal a b
        rw [Bool.or_eq_true] at htot
        rcases htot with hh | hh
        · exact hh
        · exact absurd hh hba
      rw [List.pairwise_cons]
      refine ⟨?_, List.pairwise_cons.mpr h⟩
      intro y hy
      rcases List.mem_cons.mp hy with rfl | hy
      · exact hab
      · exact htrans a b y hab (h.1 y hy)

theorem sorted_jsSort (le : α → α → Bool)
    (htrans : ∀ a b c, le a b = true → le b c = true → le a c = true)
    (htotal : ∀ a b, (le a b || le b a) = true) (l : List α) :
    (jsSort le l).Pairwise (fun x y => le x y = true) := by
  have aux : ∀ (l acc : List α),
      acc.Pairwise (fun x y => le x y = true) →
      (l.foldl (fun acc x => stableInsert le x acc) acc).Pairwise
        (fun x y => le x y = true) := by
    intro l
    induction l with
    | nil => intro acc h; exact h
    | cons x l ih =>
      intro acc h
      rw [List.foldl_cons]
      exact ih _ (sorted_stableInsert le htrans htotal x acc h)
  exact aux l [] List.Pairwise.nil

theorem pairwise_of_perm_symm {R : α → α → Prop} (hs : Symmetric R)
    {l1 l2 : List α} (p : List.Perm l1 l2) (h : l2.Pairwise R) :
    l1.Pairwise R :=
  (p.pairwise_iff (fun h => hs h)).mpr h

theorem sessLe_total (slots : List SlotDef) (x y : Assignment) :
    (sessLe slots x y || sessLe slots y x) = true := by
  simp only [sessLe, Bool.or_eq_true, Bool.and_eq_true, decide_eq_true_eq,
    beq_iff_eq]
  omega

theorem sessLe_trans (slots : List SlotDef) (x y z : Assignment)
    (h1 : sessLe slots x y = true) (h2 : sessLe slots y z = true) :
    sessLe slots x z = true := by
  simp only [sessLe, Bool.or_eq_true, Bool.and_eq_true, decide_eq_true_eq,
    beq_iff_eq] at h1 h2 ⊢
  omega

/-- C4 (confirmed): `groupCourses` returns the session-carrying groups
first, sorted by the collator relation on titles (`titleLe` embeds
`localeCompare(_, "el") <= 0`; the hypotheses are the contract of a
comparator), then the zero-session groups sorted likewise, and every group's
sessions are sorted by the relation `sessLe`: day in the fixed Mon→Fri
order, ties by the slot's registry index with the sentinel rank 9999 for
slot ids absent from the registry (which therefore sort last). -/
theorem groupCourses_ordering (titleLe : String → String → Bool)
    (courses : List Course) (assigns : List Assignment)
    (slots : List SlotDef)
    (htrans : ∀ a b c, titleLe a b = true → titleLe b c = true →
      titleLe a c = true)
    (htotal : ∀ a b, (titleLe a b || titleLe b a) = true) :
    ∃ ws ns, groupCourses titleLe courses assigns slots = ws ++ ns ∧
      (∀ g ∈ ws, g.sessions ≠ []) ∧
      (∀ g ∈ ns, g.sessions = []) ∧
      ws.Pairwise (fun g h => titleLe g.course.title h.course.title = true) ∧
      ns.Pairwise (fun g h => titleLe g.course.title h.course.title = true) ∧
      (∀ g ∈ groupCourses titleLe courses assigns slots,
        g.sessions.Pairwise (fun x y => sessLe slots x y = true)) := by
  obtain ⟨hk, hkey, hmem, hne, hres⟩ := buildGroups_inv courses assigns
  rw [groupCourses]
  refine ⟨_, _, rfl, ?_, ?_, ?_, ?_, ?_⟩
  · intro g hg
    have hg' := (jsSort_perm _ _).mem_iff.mp hg
    obtain ⟨p, hp, rfl⟩ := List.mem_map.mp hg'
    intro hnil
    apply hne p hp
    have hnil' : jsSort (sessLe slots) p.2.sessions = [] := hnil
    have hlen := (jsSort_perm (sessLe slots) p.2.sessions).length_eq
    rw [hnil'] at hlen
    exact List.eq_nil_of_length_eq_zero hlen.symm
  · intro g hg
    obtain ⟨c, hc, rfl⟩ := List.mem_map.mp hg
    rfl
  · exact sorted_jsSort _
      (fun a b c => htrans a.course.title b.course.title c.course.title)
      (fun a b => htotal a.course.title b.course.title) _
  · refine List.Pairwise.map _ (fun a b h => h) ?_
    exact sorted_jsSort _
      (fun a b c => htrans a.title b.title c.title)
      (fun a b => htotal a.title b.title) _
  · intro g hg
    rcases List.mem_append.mp hg with hg | hg
    · have hg' := (jsSort_perm _ _).mem_iff.mp hg
      obtain ⟨p, hp, rfl⟩ := List.mem_map.mp hg'
      exact sorted_jsSort _ (sessLe_trans slots) (sessLe_total slots) _
    · obtain ⟨c, hc, rfl⟩ := List.mem_map.mp hg
      exact List.Pairwise.nil

/-- C4 (witness): the ordering theorem at a concrete state, with the trivial
(total, transitive) collator. -/
theorem groupCourses_ordering_witness :
    ∃ ws ns,
      groupCourses (fun _ _ => true) [courseA, courseB] [wfAssign]
          DEFAULT_SLOTS = ws ++ ns ∧
      (∀ g ∈ ws, g.sessions ≠ []) ∧
      (∀ g ∈ ns, g.sessions = []) ∧
      ws.Pairwise (fun _ _ => (true : Bool) = true) ∧
      ns.Pairwise (fun _ _ => (true : Bool) = true) ∧
      (∀ g ∈ groupCourses (fun _ _ => true) [courseA, courseB] [wfAssign]
          DEFAULT_SLOTS,
        g.sessions.Pairwise (fun x y => sessLe DEFAULT_SLOTS x y = true)) :=
  groupCourses_ordering (fun _ _ => true) [courseA, courseB] [wfAssign]
    DEFAULT_SLOTS (fun _ _ _ _ _ => rfl) (fun _ _ => rfl)

/-! ## C10: assignments with unknown courseIds are omitted -/

/-- C10 (counterexample): with the same course record listed twice in the
input (reachable, since the normalized-key load parses the catalog without
validation), the zero-session branch emits one group per occurrence, so one
course yields two groups and "each course yields at most one group" fails
on that input. -/
theorem groupCourses_duplicate_course_two_groups :
    (groupCourses (fun _ _ => true) [courseT, courseT] [] DEFAULT_SLOTS).map
      (fun g => g.course.id) = ["c1", "c1"] ∧
    ¬ (groupCourses (fun _ _ => true) [courseT, courseT] []
        DEFAULT_SLOTS).Pairwise (fun g h => g.course ≠ h.course) := by
  constructor
  · decide
  · intro h
    have h2 : (groupCourses (fun _ _ => true) [courseT, courseT] []
        DEFAULT_SLOTS) = [⟨courseT, []⟩, ⟨courseT, []⟩] := by decide
    rw [h2] at h
    exact (List.pairwise_cons.mp h).1 _ (List.mem_singleton_self _) rfl

/-- C10 (amended): unconditionally, an assignment whose `courseId` matches
no catalog course is omitted entirely (it appears in no group's sessions)
and every group's course comes from the input list; and, *provided the
course ids are pairwise distinct*, no two groups share a course id, so each
course yields at most one group.  (Without that proviso a duplicated course
record yields one zero-session group per occurrence.) -/
theorem groupCourses_unknown_courseId (titleLe : String → String → Bool)
    (courses : List Course) (assigns : List Assignment)
    (slots : List SlotDef) :
    (∀ a : Assignment, (∀ c ∈ courses, c.id ≠ a.courseId) →
       ∀ g ∈ groupCourses titleLe courses assigns slots, a ∉ g.sessions) ∧
    (∀ g ∈ groupCourses titleLe courses assigns slots,
       g.course ∈ courses) ∧
    ((courses.map (fun c => c.id)).Nodup →
      (groupCourses titleLe courses assigns slots).Pairwise
        (fun g h => g.course.id ≠ h.course.id)) := by
  obtain ⟨hk, hkey, hmem, hne, hres⟩ := buildGroups_inv courses assigns
  have hsymm : Symmetric (fun g h : CourseGroup =>
      g.course.id ≠ h.course.id) := fun _ _ h => fun e => h e.symm
  refine ⟨?_, ?_, ?_⟩
  · intro a hno g hg hain
    have hcm : courseMapGet courses a.courseId = none := by
      rw [courseMapGet, lastMatch_eq_none]
      intro c hc
      rw [beq_eq_false_iff_ne]
      exact hno c hc
    rw [groupCourses] at hg
    rcases List.mem_append.mp hg with hg | hg
    · have hg' := (jsSort_perm _ _).mem_iff.mp hg
      obtain ⟨p, hp, rfl⟩ := List.mem_map.mp hg'
      have hain' : a ∈ jsSort (sessLe slots) p.2.sessions := hain
      have := (jsSort_perm _ _).mem_iff.mp hain'
      obtain ⟨c, hc⟩ := hres p hp a this
      rw [hcm] at hc
      cases hc
    · obtain ⟨c, hc, rfl⟩ := List.mem_map.mp hg
      cases hain
  · intro g hg
    rw [groupCourses] at hg
    rcases List.mem_append.mp hg with hg | hg
    · have hg' := (jsSort_perm _ _).mem_iff.mp hg
      obtain ⟨p, hp, rfl⟩ := List.mem_map.mp hg'
      exact hmem p hp
    · obtain ⟨c, hc, rfl⟩ := List.mem_map.mp hg
      exact List.mem_of_mem_filter ((jsSort_perm _ _).mem_iff.mp hc)
  · intro hnodup
    rw [groupCourses, List.pairwise_append]
    refine ⟨?_, ?_, ?_⟩
    · refine pairwise_of_perm_symm hsymm (jsSort_perm _ _) ?_
      rw [List.pairwise_map]
      refine List.Pairwise.imp_of_mem ?_ hkey
      intro p q hp hq hne'
      have e1 := hk p hp
      have e2 := hk q hq
      intro he
      exact hne' (by rw [e1, e2]; exact he)
    · have hsymm2 : Symmetric (fun c d : Course => c.id ≠ d.id) :=
        fun _ _ h => fun e => h e.symm
      refine List.Pairwise.map _ (fun a b h => h) ?_
      exact pairwise_of_perm_symm hsymm2 (jsSort_perm _ _)
        (List.Pairwise.sublist (List.filter_sublist _)
          (List.pairwise_map.mp hnodup))
    · intro g hg h hh
      have hg' := (jsSort_perm _ _).mem_iff.mp hg
      obtain ⟨p, hp, rfl⟩ := List.mem_map.mp hg'
      obtain ⟨c, hcmem, rfl⟩ := List.mem_map.mp hh
      have hcf := (jsSort_perm _ _).mem_iff.mp hcmem
      have hfc := List.of_mem_filter hcf
      rw [Bool.not_eq_true'] at hfc
      intro he
      have hq : ((buildGroups courses assigns).any
          (fun p => p.1 == c.id)) = true :=
        List.any_eq_true.mpr ⟨p, hp, by
          rw [beq_iff_eq]
          exact (hk p hp).trans he⟩
      rw [hq] at hfc
      cases hfc

/-- C10 (witness): the amended theorem at a concrete two-course state with
one placed assignment, the distinct-ids proviso of the third part discharged
concretely. -/
theorem groupCourses_unknown_courseId_witness :
    (∀ a : Assignment, (∀ c ∈ [courseA, courseB], c.id ≠ a.courseId) →
        ∀ g ∈ groupCourses (fun _ _ => true) [courseA, courseB] [wfAssign]
          DEFAULT_SLOTS, a ∉ g.sessions) ∧
    (∀ g ∈ groupCourses (fun _ _ => true) [courseA, courseB] [wfAssign]
        DEFAULT_SLOTS, g.course ∈ [courseA, courseB]) ∧
    (groupCourses (fun _ _ => true) [courseA, courseB] [wfAssign]
        DEFAULT_SLOTS).Pairwise (fun g h => g.course.id ≠ h.course.id) :=
  ⟨(groupCourses_unknown_courseId (fun _ _ => true) [courseA, courseB]
      [wfAssign] DEFAULT_SLOTS).1,
   (groupCourses_unknown_courseId (fun _ _ => true) [courseA, courseB]
      [wfAssign] DEFAULT_SLOTS).2.1,
   (groupCourses_unknown_courseId (fun _ _ => true) [courseA, courseB]
      [wfAssign] DEFAULT_SLOTS).2.2 (by decide)⟩

/-! ### C6: HTML escaping in the export document -/

theorem replaceAllChar_append (p : Char) (r : List Char) (a b : List Char) :
    replaceAllChar p r (a ++ b) = replaceAllChar p r a ++ replaceAllChar p r b := by
  induction a with
  | nil => rfl
  | cons c cs ih =>
    rw [List.cons_append, replaceAllChar, replaceAllChar]
    by_cases h : (c == p) = true
    · rw [if_pos h, if_pos h, ih, List.append_assoc]
    · rw [if_neg h, if_neg h, ih, List.cons_append]

theorem escHtmlL_append (a b : List Char) :
    escHtmlL (a ++ b) = escHtmlL a ++ escHtmlL b := by
  simp only [escHtmlL, replaceAllChar_append]

theorem escHtmlL_single (c : Char) : escHtmlL [c] = escChar c := by
  by_cases h1 : c = '&'
  · subst h1; decide
  by_cases h2 : c = '<'
  · subst h2; decide
  by_cases h3 : c = '>'
  · subst h3; decide
  by_cases h4 : c = Char.ofNat 34
  · subst h4; decide
  by_cases h5 : c = Char.ofNat 39
  · subst h5; decide
  simp [escHtmlL, replaceAllChar, escChar, h1, h2, h3, h4, h5]

theorem escHtmlL_eq (cs : List Char) : escHtmlL cs = (cs.map escChar).flatten := by
  induction cs with
  | nil => rfl
  | cons c cs ih =>
    have h : escHtmlL (c :: cs) = escHtmlL [c] ++ escHtmlL cs := escHtmlL_append [c] cs
    rw [h, escHtmlL_single, ih, List.map_cons, List.flatten_cons]

theorem escapeHtml_eq_escapeSpec (s : String) : escapeHtml s = escapeSpec s :=
  congrArg String.mk (escHtmlL_eq s.data)

theorem startsWithL_append_of_le (p : List Char) :
    ∀ (l ys : List Char), p.length ≤ l.length →
      startsWithL p (l ++ ys) = startsWithL p l := by
  induction p with
  | nil => intro l ys _; rfl
  | cons a ps ih =>
    intro l ys h
    cases l with
    | nil => simp at h
    | cons c cs =>
      have h' : ps.length ≤ cs.length := by
        simp only [List.length_cons] at h; omega
      rw [List.cons_append, startsWithL, startsWithL, ih cs ys h']

theorem startsWithL_mono (p : List Char) :
    ∀ (l ys : List Char), startsWithL p l = true →
      startsWithL p (l ++ ys) = true := by
  induction p with
  | nil => intro l ys _; rfl
  | cons a ps ih =>
    intro l ys h
    cases l with
    | nil => simp [startsWithL] at h
    | cons c cs =>
      rw [startsWithL, Bool.and_eq_true] at h
      rw [List.cons_append, startsWithL, Bool.and_eq_true]
      exact ⟨h.1, ih cs ys h.2⟩

theorem containsL_nil_left : ∀ (l : List Char), containsL ([] : List Char) l = true := by
  intro l
  cases l with
  | nil => rfl
  | cons c rest => rw [containsL]; rfl

theorem containsL_nil_right (a : Char) (ps : List Char) :
    containsL (a :: ps) [] = false := rfl

theorem containsL_mono (p : List Char) :
    ∀ (l ys : List Char), containsL p l = true → containsL p (l ++ ys) = true := by
  intro l
  induction l with
  | nil =>
    intro ys h
    cases p with
    | nil => exact containsL_nil_left ys
    | cons a ps => rw [containsL, startsWithL] at h; exact Bool.noConfusion h
  | cons c rest ih =>
    intro ys h
    rw [containsL, Bool.or_eq_true] at h
    rw [List.cons_append, containsL, Bool.or_eq_true]
    cases h with
    | inl h => exact Or.inl (startsWithL_mono p (c :: rest) ys h)
    | inr h => exact Or.inr (ih ys h)

theorem containsL_append_window (a : Char) (ps : List Char) :
    ∀ (xs ys : List Char),
      containsL (a :: ps) (xs ++ ys) =
        (containsL (a :: ps) xs ||
          containsL (a :: ps)
            (xs.drop (xs.length - ((a :: ps).length - 1)) ++ ys)) := by
  intro xs
  induction xs with
  | nil =>
    intro ys
    rw [List.nil_append, List.drop_nil, List.nil_append, containsL_nil_right,
      Bool.false_or]
  | cons x rest ih =>
    intro ys
    by_cases hlen : rest.length + 1 ≤ ps.length
    · have hz : (x :: rest).length - ((a :: ps).length - 1) = 0 := by
        simp only [List.length_cons]; omega
      rw [hz, List.drop_zero]
      cases hc : containsL (a :: ps) (x :: rest) with
      | false => rw [Bool.false_or]
      | true =>
        rw [Bool.true_or]
        exact containsL_mono (a :: ps) (x :: rest) ys hc
    · have hnz : (x :: rest).length - ((a :: ps).length - 1)
          = (rest.length - ((a :: ps).length - 1)) + 1 := by
        simp only [List.length_cons]; omega
      rw [hnz, List.drop_succ_cons]
      have hsw : startsWithL (a :: ps) ((x :: rest) ++ ys)
          = startsWithL (a :: ps) (x :: rest) :=
        startsWithL_append_of_le _ _ _ (by simp only [List.length_cons]; omega)
      rw [List.cons_append] at hsw
      rw [List.cons_append, containsL, containsL, ih ys, hsw, Bool.or_assoc]

theorem chunkedContains_eq (a : Char) (ps : List Char) :
    ∀ (cs : List (List Char)) (w : List Char),
      chunkedContains (a :: ps) w cs = containsL (a :: ps) (w ++ cs.flatten) := by
  intro cs
  induction cs with
  | nil =>
    intro w
    rw [chunkedContains, List.flatten_nil, List.append_nil]
  | cons c cs ih =>
    intro w
    simp only [chunkedContains]
    rw [ih, List.flatten_cons, ← List.append_assoc]
    exact (containsL_append_window a ps (w ++ c) cs.flatten).symm

theorem splitChunks_flatten (n : Nat) :
    ∀ (fuel : Nat) (l : List Char), (splitChunks n fuel l).flatten = l := by
  intro fuel
  induction fuel with
  | zero =>
    intro l
    cases l with
    | nil => rfl
    | cons c cs =>
      simp only [splitChunks, List.flatten_cons, List.flatten_nil, List.append_nil]
  | succ fuel ih =>
    intro l
    cases l with
    | nil => rfl
    | cons c cs =>
      rw [splitChunks, List.flatten_cons, ih, List.take_append_drop]

theorem containsL_eq_chunked (p : List Char) (hp : p ≠ []) (n fuel : Nat)
    (l : List Char) :
    containsL p l = chunkedContains p [] (splitChunks n fuel l) := by
  cases p with
  | nil => exact absurd rfl hp
  | cons a ps => rw [chunkedContains_eq a ps, List.nil_append, splitChunks_flatten]

set_option maxRecDepth 100000 in
set_option maxHeartbeats 4000000 in
/-- C6: the HTML escaper used by the export replaces every occurrence of
ampersand, less-than, greater-than, double quote and single quote with its
entity, independently per character (`escapeHtml` agrees with the per-character
specification `escapeSpec` on every string); and the export document built for
a schedule containing a course titled `<script>alert(1)</script>` contains the
escaped sequence `&lt;script&gt;` and never the literal `<script` tag. -/
theorem export_escapes_scripts :
    (∀ s : String, escapeHtml s = escapeSpec s) ∧
    strContains scriptDoc "&lt;script&gt;" = true ∧
    strContains scriptDoc "<script" = false := by
  refine ⟨escapeHtml_eq_escapeSpec, ?_, ?_⟩
  · rw [strContains,
      containsL_eq_chunked ("&lt;script&gt;".data) (by decide) 999 9000 scriptDoc.data]
    decide
  · rw [strContains,
      containsL_eq_chunked ("<script".data) (by decide) 999 9000 scriptDoc.data]
    decide
